import Mathlib

/-!
# kvdb record scanner and merge cursor

A shallow embedding of `pkg/kvdb/record/scanner.go`: the split function handed
to `bufio.Scanner`, the `Scanner` wrapper with `Record()`, and the
`scannerCursor` used by the merge.

* Byte slices are lists of bytes. The scanner's buffer is kept as its length
  `bufLen`, the read position `start` and the window `win = buf[start:end]`;
  bytes of the buffer outside the window are never observed.
* The record codec (`FromBytes`, `Size`, `Key`, `Write`, `metaLength`,
  `ErrInsufficientData`) lives in a file of the package that is not part of the
  sources at hand, so the scanner is embedded over an arbitrary `Codec`.
* `bufio.Scanner.Scan` is embedded from the Go standard library: one pass of
  its `for` loop is `scanIter`, and `Scan` runs the loop. The decoder's errors
  are its own (`DecodeErr`), never the sentinel `bufio.ErrFinalToken`, so the
  `done` flag of the scanner is never set and is left out.
* The reader is a finite byte stream cut into reads by a schedule; it returns
  `io.EOF` once drained and no other error, and never a bad byte count.
* Go `int` is taken to be 64 bits wide; the one `int` sum of scanner.go,
  `maxScanTokenSize + metaLength`, wraps around (`wrapInt`).
* Records are values: the aliasing between a token and the scanner's buffer is
  not modelled.
-/

namespace Kvdb

/-- A byte of a stream or of a buffer. -/
abbrev Byte := Nat

/-- Errors returned by the record decoder: the sentinel `ErrInsufficientData`,
an error wrapping another one (`%w`), or any other decode error. -/
inductive DecodeErr where
  | insufficientData
  | wrap (inner : DecodeErr)
  | malformed (code : Nat)
  deriving DecidableEq, Repr

/-- The test `errors.Is(err, ErrInsufficientData)`: follows the wrap chain. -/
def DecodeErr.isInsufficientData : DecodeErr → Bool
  | .insufficientData => true
  | .wrap e => e.isInsufficientData
  | .malformed _ => false

/-- Errors a scanner can record: `io.EOF` from the reader, the sentinels of
`bufio`, or an error returned by the split function. -/
inductive ScanErr where
  | EOF
  | ErrTooLong
  | ErrAdvanceTooFar
  | ErrNoProgress
  | decode (e : DecodeErr)
  deriving DecidableEq, Repr

/-- The record codec the scanner is built on. `FromBytes` decodes a record from
the front of a buffer (a failed decode returns no record), `Size` is `r.Size()`,
`Key` is `r.Key()`, and `Write r` is the byte sequence `r.Write(w)` hands to `w`. -/
structure Codec (R : Type) where
  metaLength : Nat
  FromBytes : List Byte → Except DecodeErr R
  Size : R → Nat
  Key : R → List Byte
  Value : R → List Byte
  Write : R → List Byte

/-- The three results `(advance, token, err)` of a split function. -/
structure SplitResult where
  advance : Nat
  token : Option (List Byte)
  err : Option DecodeErr
  deriving DecidableEq, Repr

/-- The function `split` of scanner.go. The token `data[:adv]` is `data.take adv`;
when `adv` exceeds `len(data)` Go reslices into the spare capacity of the buffer
(or fails beyond it), which `Scanner.trySplit` treats before the token is used. -/
def split {R : Type} (c : Codec R) (data : List Byte) (atEOF : Bool) : SplitResult :=
  if atEOF && data.length == 0 then
    { advance := 0, token := none, err := none }
  else
    match c.FromBytes data with
    | .error e =>
      if e.isInsufficientData then
        { advance := 0, token := none, err := none }
      else
        { advance := 0, token := none, err := some e }
    | .ok r =>
      { advance := c.Size r, token := some (data.take (c.Size r)), err := none }

/-- An `io.Reader` over a finite stream: `data` is what has not been delivered
yet, `sched` the sizes the coming reads are willing to return (once the
schedule is used up a read returns all that fits). -/
structure Reader where
  data : List Byte
  sched : List Nat
  deriving DecidableEq, Repr

/-- One call `Read(p)` with `len(p) = room`: the reader after the call, the
bytes copied into `p`, and the error. A drained reader answers `0, io.EOF`. -/
def Reader.Read (r : Reader) (room : Nat) : Reader × List Byte × Option ScanErr :=
  if r.data.length = 0 then
    (r, [], some ScanErr.EOF)
  else
    let want := match r.sched with
      | [] => room
      | k :: _ => k
    let n := min want (min room r.data.length)
    ({ data := r.data.drop n, sched := r.sched.tail }, r.data.take n, none)

/-- The state of a `bufio.Scanner`; `end` is `start + win.length`. -/
structure Scanner where
  r : Reader
  maxTokenSize : Int
  token : Option (List Byte)
  bufLen : Nat
  start : Nat
  win : List Byte
  err : Option ScanErr
  empties : Nat
  deriving DecidableEq, Repr

/-- Result of one pass of the loop of `Scan`: return a boolean, go round again,
or abort the program (a Go run-time failure). -/
inductive Step where
  | ret (s : Scanner) (ok : Bool)
  | again (s : Scanner)
  | crash
  deriving DecidableEq, Repr

/-- Result of a call of `Scan`. -/
inductive ScanOutcome where
  | ret (s : Scanner) (ok : Bool)
  | crash
  deriving DecidableEq, Repr

/-- Largest Go `int`. -/
def maxInt : Nat := 2 ^ 63 - 1

/-- The constant `maxConsecutiveEmptyReads` of bufio. -/
def maxConsecutiveEmptyReads : Nat := 100

/-- The constant `startBufSize` of bufio. -/
def startBufSize : Nat := 4096

/-- Two's complement wrap-around of a Go `int`. -/
def wrapInt (x : Int) : Int := (x + 2 ^ 63) % 2 ^ 64 - 2 ^ 63

/-- The method `setErr`: records the first error that is not `io.EOF`. -/
def Scanner.setErr (s : Scanner) (e : ScanErr) : Scanner :=
  if s.err = none ∨ s.err = some ScanErr.EOF then { s with err := some e } else s

/-- The method `Err`: the first error met that is not `io.EOF`. -/
def Scanner.Err (s : Scanner) : Option ScanErr :=
  if s.err = some ScanErr.EOF then none else s.err

/-- The method `Bytes`: the most recent token. -/
def Scanner.Bytes (s : Scanner) : List Byte := s.token.getD []

/-- First half of a pass of `Scan`: if there are buffered bytes or an error is
recorded, call `split` on the window and act on its answer. -/
def Scanner.trySplit {R : Type} (c : Codec R) (s : Scanner) : Step :=
  if s.win ≠ [] ∨ s.err ≠ none then
    let res := split c s.win (s.err != none)
    match res.err with
    | some e => Step.ret (s.setErr (ScanErr.decode e)) false
    | none =>
      if s.bufLen - s.start < res.advance then
        Step.crash
      else if s.win.length < res.advance then
        Step.ret (s.setErr ScanErr.ErrAdvanceTooFar) false
      else
        let s1 : Scanner :=
          { s with start := s.start + res.advance, win := s.win.drop res.advance,
                   token := res.token }
        match res.token with
        | some _ =>
          if s.err = none ∨ 0 < res.advance then
            Step.ret { s1 with empties := 0 } true
          else if maxConsecutiveEmptyReads < s1.empties + 1 then
            Step.crash
          else
            Step.ret { s1 with empties := s1.empties + 1 } true
        | none => Step.again s1
  else
    Step.again s

/-- The inner read loop of `Scan`: read into `buf[end:]` until bytes or an
error arrive, giving up after too many empty reads (`k` more are tolerated). -/
def Scanner.readLoop : Nat → Scanner → Scanner
  | k, s =>
    match s.r.Read (s.bufLen - (s.start + s.win.length)) with
    | (r1, bytes, some e) =>
      Scanner.setErr { s with r := r1, win := s.win ++ bytes } e
    | (r1, bytes, none) =>
      if 0 < bytes.length then
        { s with r := r1, win := s.win ++ bytes, empties := 0 }
      else
        match k with
        | 0 => Scanner.setErr { s with r := r1, win := s.win ++ bytes } ScanErr.ErrNoProgress
        | k1 + 1 => Scanner.readLoop k1 { s with r := r1, win := s.win ++ bytes }

/-- The shift of the window to the front of the buffer when space is needed. -/
def Scanner.shift (s : Scanner) : Scanner :=
  if 0 < s.start ∧ (s.start + s.win.length = s.bufLen ∨ s.bufLen / 2 < s.start) then
    { s with start := 0 }
  else s

/-- The resize of a full buffer: twice the length (`startBufSize` for an empty
buffer), at most `maxTokenSize`; the window moves to the front. -/
def Scanner.grow (s : Scanner) : Scanner :=
  { s with
    bufLen := min (if s.bufLen * 2 = 0 then startBufSize else s.bufLen * 2) s.maxTokenSize.toNat
    start := 0 }

/-- Second half of a pass of `Scan`: stop if an error is recorded, else make
room in the buffer (shift, then double it up to `maxTokenSize`) and read. -/
def Scanner.fill (s : Scanner) : Step :=
  if s.err ≠ none then
    Step.ret { s with start := 0, win := [] } false
  else if s.shift.start + s.shift.win.length = s.shift.bufLen then
    if s.shift.maxTokenSize ≤ (s.shift.bufLen : Int) ∨ maxInt / 2 < s.shift.bufLen then
      Step.ret (s.shift.setErr ScanErr.ErrTooLong) false
    else
      Step.again (Scanner.readLoop maxConsecutiveEmptyReads s.shift.grow)
  else
    Step.again (Scanner.readLoop maxConsecutiveEmptyReads s.shift)

/-- One pass of the `for` loop of `Scan`. -/
def scanIter {R : Type} (c : Codec R) (s : Scanner) : Step :=
  match s.trySplit c with
  | Step.again s1 => s1.fill
  | other => other

/-- The loop of `Scan`, run for at most `fuel` passes. -/
def scanLoop {R : Type} (c : Codec R) : Nat → Scanner → Option ScanOutcome
  | 0, _ => none
  | fuel + 1, s =>
    match scanIter c s with
    | Step.ret s1 ok => some (ScanOutcome.ret s1 ok)
    | Step.crash => some ScanOutcome.crash
    | Step.again s1 => scanLoop c fuel s1

/-- The method `Scan`. Every pass that does not return takes bytes from the
reader or records an error, so `data.length + 2` passes are always enough
(`Scan_returns`). -/
def Scan {R : Type} (c : Codec R) (s : Scanner) : Option ScanOutcome :=
  scanLoop c (s.r.data.length + 2) s

/-- The constructor `NewScanner` of scanner.go: a 4096 byte buffer, the token
limit `maxScanTokenSize + metaLength` (computed in `int`), `split` as split
function. The error it returns is always nil. -/
def NewScanner {R : Type} (c : Codec R) (r : Reader) (maxScanTokenSize : Int) : Scanner :=
  { r := r
    maxTokenSize := wrapInt (maxScanTokenSize + c.metaLength)
    token := none
    bufLen := 4096
    start := 0
    win := []
    err := none
    empties := 0 }

/-- The method `Record` of scanner.go: decode the current token again, dropping
the error. -/
def Scanner.Record {R : Type} (c : Codec R) (s : Scanner) : Option R :=
  match c.FromBytes s.Bytes with
  | .ok r => some r
  | .error _ => none

/-- The struct `scannerCursor`: the record held (nil is `none`) and the scanner. -/
structure scannerCursor (R : Type) where
  record : Option R
  scanner : Scanner
  deriving DecidableEq

/-- The constructor `newScannerCursor`. -/
def newScannerCursor {R : Type} (scanner : Scanner) : scannerCursor R :=
  { record := none, scanner := scanner }

/-- The method `key`: the result and the cursor after the call. -/
def scannerCursor.key {R : Type} (c : Codec R) (s : scannerCursor R) :
    Option (List Byte) × scannerCursor R :=
  match s.record with
  | none => (none, s)
  | some r => (some (c.Key r), s)

/-- The method `next` on a cursor that is not nil: `Scan`, then `Record`.
The result is `none` when `Scan` does not return. -/
def scannerCursor.next {R : Type} (c : Codec R) (s : scannerCursor R) :
    Option (scannerCursor R) :=
  match Scan c s.scanner with
  | some (ScanOutcome.ret sc _) => some { record := sc.Record c, scanner := sc }
  | _ => none

/-- The method `next` with its receiver check: on a nil cursor nothing happens. -/
def scannerCursor.nextPtr {R : Type} (c : Codec R) :
    Option (scannerCursor R) → Option (Option (scannerCursor R))
  | none => some none
  | some s => (s.next c).map some

/-- The method `write`: the cursor and the sink (the bytes written so far)
after the call. -/
def scannerCursor.write {R : Type} (c : Codec R) (s : scannerCursor R) (w : List Byte) :
    scannerCursor R × List Byte :=
  match s.record with
  | none => (s, w)
  | some r => (s, w ++ c.Write r)

/-- The method `next` called `n` times in a row on a cursor that is not nil. -/
def scannerCursor.nextN {R : Type} (c : Codec R) : Nat → scannerCursor R → Option (scannerCursor R)
  | 0, s => some s
  | n + 1, s => (s.next c).bind (scannerCursor.nextN c n)

/-- The loop `for s.Scan() { ... s.Bytes() ... s.Record() ... }`: the tokens
and the records decoded from them, in order, with the scanner left behind.
At most `fuel` calls of `Scan` are made; `none` when that is not enough or the
program aborts. -/
def scanAll {R : Type} (c : Codec R) :
    Nat → Scanner → Option (List (List Byte × Option R) × Scanner)
  | 0, _ => none
  | fuel + 1, s =>
    match Scan c s with
    | some (ScanOutcome.ret s1 true) =>
      (scanAll c fuel s1).map (fun p => ((s1.Bytes, s1.Record c) :: p.1, p.2))
    | some (ScanOutcome.ret s1 false) => some ([], s1)
    | _ => none

/-- The merge driver's use of one cursor: `next()`, then `write(w)`, repeated
until `key()` is nil. The result is the cursor and the sink at the end. -/
def drive {R : Type} (c : Codec R) :
    Nat → scannerCursor R → List Byte → Option (scannerCursor R × List Byte)
  | 0, _, _ => none
  | fuel + 1, s, w =>
    match s.next c with
    | none => none
    | some s1 =>
      match (((s1.write c w).1).key c).1 with
      | none => some ((((s1.write c w).1).key c).2, (s1.write c w).2)
      | some _ => drive c fuel (((s1.write c w).1).key c).2 (s1.write c w).2

/-- The contract of the record codec as the spec states it, for the records
`valid` singles out: a buffer shorter than the meta header is
`InsufficientData`; decoding reads back an encoded record from the front of a
buffer (round-trip); every proper initial segment of an encoding is
`InsufficientData`; and `Size` is the encoded length, the meta header plus key
plus value. -/
structure Codec.Lawful {R : Type} (c : Codec R) (valid : R → Prop) : Prop where
  header_pos : 0 < c.metaLength
  short : ∀ data : List Byte, data.length < c.metaLength →
    ∃ e, c.FromBytes data = .error e ∧ e.isInsufficientData = true
  decode_encode : ∀ (r : R) (rest : List Byte), valid r →
    c.FromBytes (c.Write r ++ rest) = .ok r
  need_more : ∀ (r : R) (p t : List Byte), valid r → p ++ t = c.Write r → t ≠ [] →
    ∃ e, c.FromBytes p = .error e ∧ e.isInsufficientData = true
  size_write : ∀ r : R, valid r → c.Size r = (c.Write r).length
  size_eq : ∀ r : R, valid r →
    c.Size r = c.metaLength + (c.Key r).length + (c.Value r).length

/-- Well-formed scanner states: the window lies inside the buffer, the buffer
has at least its initial 4096 bytes and at most the larger of 4096 and
`maxTokenSize`, the only error recorded so far is the end of a drained reader,
and every read of the reader returns at least one byte while bytes remain. -/
structure Scanner.WF (s : Scanner) : Prop where
  fits : s.start + s.win.length ≤ s.bufLen
  big : 4096 ≤ s.bufLen
  cap : (s.bufLen : Int) ≤ max 4096 s.maxTokenSize
  err_ok : s.err = none ∨ (s.err = some ScanErr.EOF ∧ s.r.data = [])
  sched_pos : ∀ k ∈ s.r.sched, 0 < k

/-- A token of `n` bytes can be buffered: it fits the buffer as it is, or the
buffer may still be doubled up to it. -/
def Scanner.admits (s : Scanner) (n : Nat) : Prop :=
  n ≤ s.bufLen ∨ ((n : Int) ≤ s.maxTokenSize ∧ n ≤ maxInt / 2 + 1)

/-- The bytes of a stream holding the given records back to back. -/
def encodeAll {R : Type} (c : Codec R) (rs : List R) : List Byte :=
  (rs.map c.Write).flatten

/-- A key/value record as the spec describes it. -/
structure Record where
  key : List Byte
  value : List Byte
  deriving DecidableEq, Repr

/-- Modelled from the spec: the decoder `FromBytes` of the record codec, whose
source is missing. A fixed four byte meta header holds the key length and the
value length as signed 16 bit big-endian numbers; a buffer without a full
header or with fewer bytes than declared is `InsufficientData`, a negative
declared length is `Malformed`. -/
def specFromBytes : List Byte → Except DecodeErr Record
  | k1 :: k0 :: v1 :: v0 :: body =>
    if 32768 ≤ k1 * 256 + k0 ∨ 32768 ≤ v1 * 256 + v0 then
      .error (DecodeErr.malformed 1)
    else if body.length < (k1 * 256 + k0) + (v1 * 256 + v0) then
      .error DecodeErr.insufficientData
    else
      .ok { key := body.take (k1 * 256 + k0),
            value := (body.drop (k1 * 256 + k0)).take (v1 * 256 + v0) }
  | _ => .error DecodeErr.insufficientData

/-- Modelled from the spec: the encoder `Record.Write` of the record codec,
whose source is missing: the meta header, then the key, then the value. -/
def specWrite (r : Record) : List Byte :=
  [r.key.length / 256, r.key.length % 256, r.value.length / 256, r.value.length % 256]
    ++ r.key ++ r.value

/-- Modelled from the spec: the record codec, whose source is missing, with
`Size() = metaLength + len(key) + len(value)`. -/
def specCodec : Codec Record :=
  { metaLength := 4
    FromBytes := specFromBytes
    Size := fun r => 4 + r.key.length + r.value.length
    Key := fun r => r.key
    Value := fun r => r.value
    Write := specWrite }

/-- The records the spec codec can encode: both lengths fit the signed 16 bit
fields of the meta header. -/
def specValid (r : Record) : Prop := r.key.length < 32768 ∧ r.value.length < 32768

instance specValid.decidable (r : Record) : Decidable (specValid r) := by
  unfold specValid
  infer_instance

/-- Example record: key `a`, value one byte. Its encoding is
`[0, 1, 0, 1, 97, 1]`. -/
def recA : Record := { key := [97], value := [1] }

/-- Example record with a key of 5000 bytes and no value: 5004 bytes encoded,
more than the initial buffer of the scanner. -/
def recBig : Record := { key := List.replicate 5000 0, value := [] }

/-- Example stream: the encoding of `recA` followed by a meta header that
declares a negative key length. -/
def streamBadTail : List Byte := [0, 1, 0, 1, 97, 1, 200, 0, 0, 0, 1]

/-- Example stream: the encoding of `recA` followed by the first five of the
six bytes of a second copy (a stream cut in the middle of a record). -/
def streamCut : List Byte := [0, 1, 0, 1, 97, 1, 0, 1, 0, 1, 97]

/-- The scanner over `streamBadTail` (token limit 16 + 4) after its first
`Scan`: the token is the encoding of `recA`, the window holds the bad tail. -/
def scanBadTail : Scanner :=
  { r := { data := [], sched := [] }, maxTokenSize := 20,
    token := some [0, 1, 0, 1, 97, 1], bufLen := 4096, start := 6,
    win := [200, 0, 0, 0, 1], err := none, empties := 0 }

/-- The scanner over `streamBadTail` (token limit 16 + 4) after its first
`Scan` when the reader hands out one byte per read: the token is the encoding
of `recA`, nothing else is buffered yet and the bad tail is still to be read. -/
def scanBadTailBytewise : Scanner :=
  { r := { data := [200, 0, 0, 0, 1], sched := [1, 1, 1, 1, 1] }, maxTokenSize := 20,
    token := some [0, 1, 0, 1, 97, 1], bufLen := 4096, start := 6,
    win := [], err := none, empties := 0 }

/-- A scanner that met the end of its stream with five bytes of an incomplete
record left in the window. -/
def scanCutTail : Scanner :=
  { r := { data := [], sched := [] }, maxTokenSize := 20,
    token := none, bufLen := 4096, start := 6,
    win := [0, 1, 0, 1, 97], err := some ScanErr.EOF, empties := 0 }

/-- A scanner over an empty stream after the `Scan` that met the end of the
stream. -/
def scanDone : Scanner :=
  { r := { data := [], sched := [] }, maxTokenSize := 20,
    token := none, bufLen := 4096, start := 0,
    win := [], err := some ScanErr.EOF, empties := 0 }

/-- The method `Scan` called `n` times in a row, whatever each call returns:
the scanner after the last call, `none` if a call aborts the program. -/
def scanN {R : Type} (c : Codec R) : Nat → Scanner → Option Scanner
  | 0, s => some s
  | n + 1, s =>
    match Scan c s with
    | some (ScanOutcome.ret s1 _) => scanN c n s1
    | _ => none

/-- The first `n` calls of `Scan`, each of which has to return true: the
tokens with the records decoded from them, and the scanner after the last
call; `none` if one of the calls returns false or aborts. -/
def scanFirst {R : Type} (c : Codec R) :
    Nat → Scanner → Option (List (List Byte × Option R) × Scanner)
  | 0, s => some ([], s)
  | n + 1, s =>
    match Scan c s with
    | some (ScanOutcome.ret s1 true) =>
      (scanFirst c n s1).map (fun p => ((s1.Bytes, s1.Record c) :: p.1, p.2))
    | _ => none

/-- What the caller of `Scan` observes: the boolean returned, `Err()` and
`Bytes()`; `none` if the call aborted. -/
def ScanOutcome.view : ScanOutcome → Option (Bool × Option ScanErr × List Byte)
  | ScanOutcome.ret s ok => some (ok, s.Err, s.Bytes)
  | ScanOutcome.crash => none

/-- The size bounds of a scanner with token limit `T`: the limit is still `T`,
the buffer is no longer than the larger of its initial 4096 bytes and `T`, and
the buffered bytes lie inside the buffer. -/
structure Scanner.Bounded (T : Int) (s : Scanner) : Prop where
  limit : s.maxTokenSize = T
  cap : (s.bufLen : Int) ≤ max 4096 T
  fits : s.start + s.win.length ≤ s.bufLen

/-- A scanner built by `NewScanner` with token limit 0 + 4 over two copies of
the encoding of `recA`, after its first `Scan`: six bytes were consumed and six
are still buffered. -/
def scanTwoA : Scanner :=
  { r := { data := [], sched := [] }, maxTokenSize := 4,
    token := some [0, 1, 0, 1, 97, 1], bufLen := 4096, start := 6,
    win := [0, 1, 0, 1, 97, 1], err := none, empties := 0 }

/-! ## Theorems -/

variable {R : Type}

theorem split_nil_eof (c : Codec R) : split c [] true = ⟨0, none, none⟩ := by
  simp [split]

theorem split_of_ok (c : Codec R) (data : List Byte) (atEOF : Bool) (r : R)
    (hne : data ≠ []) (h : c.FromBytes data = .ok r) :
    split c data atEOF = ⟨c.Size r, some (data.take (c.Size r)), none⟩ := by
  have hlen : data.length ≠ 0 := by
    intro h0; exact hne (List.length_eq_zero.mp h0)
  simp [split, hlen, h]

theorem split_of_insufficient (c : Codec R) (data : List Byte) (atEOF : Bool) (e : DecodeErr)
    (h : c.FromBytes data = .error e) (he : e.isInsufficientData = true) :
    split c data atEOF = ⟨0, none, none⟩ := by
  unfold split
  split
  · rfl
  · simp [h, he]

theorem split_of_fatal (c : Codec R) (data : List Byte) (atEOF : Bool) (e : DecodeErr)
    (hne : data ≠ []) (h : c.FromBytes data = .error e) (he : e.isInsufficientData = false) :
    split c data atEOF = ⟨0, none, some e⟩ := by
  have hlen : data.length ≠ 0 := by
    intro h0; exact hne (List.length_eq_zero.mp h0)
  simp [split, hlen, h, he]

theorem setErr_err_ne_none (s : Scanner) (e : ScanErr) : (s.setErr e).err ≠ none := by
  unfold Scanner.setErr
  split
  · simp
  · rename_i h; intro h2; exact h (Or.inl h2)

theorem setErr_of_none (s : Scanner) (e : ScanErr) (h : s.err = none) :
    s.setErr e = { s with err := some e } := by
  simp [Scanner.setErr, h]

theorem setErr_of_EOF (s : Scanner) (e : ScanErr) (h : s.err = some ScanErr.EOF) :
    s.setErr e = { s with err := some e } := by
  simp [Scanner.setErr, h]

theorem Read_spec (r : Reader) (room : Nat) :
    (r.Read room).2.1 ++ (r.Read room).1.data = r.data ∧
    (r.Read room).2.1.length ≤ room ∧
    (((r.Read room).2.2 = some ScanErr.EOF ∧ r.data = [] ∧ (r.Read room).2.1 = []) ∨
     ((r.Read room).2.2 = none ∧ r.data ≠ [])) := by
  unfold Reader.Read
  by_cases hd : r.data.length = 0
  · have hd2 : r.data = [] := List.length_eq_zero.mp hd
    simp [hd, hd2]
  · have hd2 : r.data ≠ [] := fun h => hd (by simp [h])
    simp only [hd, if_false, List.take_append_drop, List.length_take, true_and]
    refine ⟨?_, Or.inr hd2⟩
    omega

theorem readLoop_frame (k : Nat) (s : Scanner) :
    (Scanner.readLoop k s).bufLen = s.bufLen ∧ (Scanner.readLoop k s).start = s.start ∧
    (Scanner.readLoop k s).maxTokenSize = s.maxTokenSize ∧
    (Scanner.readLoop k s).token = s.token ∧
    (Scanner.readLoop k s).win ++ (Scanner.readLoop k s).r.data = s.win ++ s.r.data ∧
    (Scanner.readLoop k s).r.data.length ≤ s.r.data.length ∧
    ((Scanner.readLoop k s).err ≠ none ∨
      (Scanner.readLoop k s).r.data.length < s.r.data.length) := by
  induction k generalizing s with
  | zero =>
    have hs := Read_spec s.r (s.bufLen - (s.start + s.win.length))
    rcases hread : s.r.Read (s.bufLen - (s.start + s.win.length)) with ⟨r1, bytes, err⟩
    rw [hread] at hs
    simp only at hs
    obtain ⟨h1, h2, h3⟩ := hs
    have hl : bytes.length + r1.data.length = s.r.data.length := by
      rw [← h1]; simp
    unfold Scanner.readLoop
    rw [hread]
    cases err with
    | some e =>
      simp only [Scanner.setErr]
      split <;> simp_all
    | none =>
      simp only
      split
      · simp [h1]; omega
      · simp only [Scanner.setErr]
        split <;> simp_all
  | succ k ih =>
    have hs := Read_spec s.r (s.bufLen - (s.start + s.win.length))
    rcases hread : s.r.Read (s.bufLen - (s.start + s.win.length)) with ⟨r1, bytes, err⟩
    rw [hread] at hs
    simp only at hs
    obtain ⟨h1, h2, h3⟩ := hs
    have hl : bytes.length + r1.data.length = s.r.data.length := by
      rw [← h1]; simp
    unfold Scanner.readLoop
    rw [hread]
    cases err with
    | some e =>
      simp only [Scanner.setErr]
      split <;> simp_all
    | none =>
      simp only
      split
      · simp [h1]; omega
      · have := ih { s with r := r1, win := s.win ++ bytes }
        simp only [List.append_assoc, h1] at this
        obtain ⟨a1, a2, a3, a4, a5, a6, a7⟩ := this
        refine ⟨a1, a2, a3, a4, a5, by omega, ?_⟩
        rcases a7 with a7 | a7
        · exact Or.inl a7
        · exact Or.inr (by omega)

theorem trySplit_again (c : Codec R) (s s1 : Scanner) (h : s.trySplit c = Step.again s1) :
    s1.err = s.err ∧ s1.r = s.r ∧ s1.bufLen = s.bufLen ∧ s1.maxTokenSize = s.maxTokenSize ∧
    (s.win = [] ∧ s.err = none ∧ s1 = s ∨ (s.win ≠ [] ∨ s.err ≠ none) ∧ s1.token = none) := by
  unfold Scanner.trySplit at h
  split at h
  · rename_i hc
    simp only at h
    split at h
    · exact Step.noConfusion h
    · split at h
      · exact Step.noConfusion h
      · split at h
        · exact Step.noConfusion h
        · split at h
          · split at h
            · exact Step.noConfusion h
            · split at h <;> exact Step.noConfusion h
          · rename_i htok
            injection h with h
            subst h
            simp [htok, hc]
  · rename_i hc
    injection h with h
    subst h
    simp only [not_or, not_not] at hc
    simp [hc]

theorem shift_frame (s : Scanner) :
    s.shift.win = s.win ∧ s.shift.r = s.r ∧ s.shift.err = s.err ∧ s.shift.bufLen = s.bufLen ∧
    s.shift.maxTokenSize = s.maxTokenSize ∧ s.shift.token = s.token ∧
    s.shift.empties = s.empties ∧ s.shift.start ≤ s.start := by
  unfold Scanner.shift
  split <;> simp

theorem fill_of_err (s : Scanner) (h : s.err ≠ none) :
    s.fill = Step.ret { s with start := 0, win := [] } false := by
  simp [Scanner.fill, h]

theorem grow_frame (s : Scanner) :
    s.grow.win = s.win ∧ s.grow.r = s.r ∧ s.grow.err = s.err ∧
    s.grow.maxTokenSize = s.maxTokenSize ∧ s.grow.token = s.token ∧
    s.grow.empties = s.empties ∧ s.grow.start = 0 ∧
    s.grow.bufLen =
      min (if s.bufLen * 2 = 0 then startBufSize else s.bufLen * 2) s.maxTokenSize.toNat := by
  simp [Scanner.grow]

theorem fill_again (s s1 : Scanner) (h : s.fill = Step.again s1) :
    s.err = none ∧ s1.token = s.token ∧ s1.maxTokenSize = s.maxTokenSize ∧
    s1.win ++ s1.r.data = s.win ++ s.r.data ∧
    s1.r.data.length ≤ s.r.data.length ∧
    (s1.err ≠ none ∨ s1.r.data.length < s.r.data.length) := by
  unfold Scanner.fill at h
  split at h
  · exact Step.noConfusion h
  · rename_i he
    simp only [ne_eq, not_not] at he
    obtain ⟨w1, w2, w3, w4, w5, w6, w7, w8⟩ := shift_frame s
    split at h
    · split at h
      · exact Step.noConfusion h
      · injection h with h
        subst h
        obtain ⟨g1, g2, g3, g4, g5, g6, g7, g8⟩ := grow_frame s.shift
        obtain ⟨a1, a2, a3, a4, a5, a6, a7⟩ :=
          readLoop_frame maxConsecutiveEmptyReads s.shift.grow
        have e6 : s.shift.grow.r.data.length = s.r.data.length := by rw [g2, w2]
        refine ⟨he, by rw [a4, g5, w6], by rw [a3, g4, w5],
          a5.trans (by rw [g1, g2, w1, w2]), by omega, ?_⟩
        rcases a7 with a7 | a7
        · exact Or.inl a7
        · exact Or.inr (by omega)
    · injection h with h
      subst h
      obtain ⟨a1, a2, a3, a4, a5, a6, a7⟩ := readLoop_frame maxConsecutiveEmptyReads s.shift
      have e6 : s.shift.r.data.length = s.r.data.length := by rw [w2]
      refine ⟨he, by rw [a4, w6], by rw [a3, w5], a5.trans (by rw [w1, w2]), by omega, ?_⟩
      rcases a7 with a7 | a7
      · exact Or.inl a7
      · exact Or.inr (by omega)

/-- The loop of Scan returns once the fuel exceeds the bytes left in the reader
(plus one pass to meet the end of the stream). -/
theorem scanLoop_returns (c : Codec R) (fuel : Nat) (s : Scanner)
    (h : s.r.data.length + (if s.err = none then 1 else 0) < fuel) :
    ∃ o, scanLoop c fuel s = some o := by
  induction fuel generalizing s with
  | zero => omega
  | succ n ih =>
    unfold scanLoop
    cases hit : scanIter c s with
    | ret s1 ok => exact ⟨_, rfl⟩
    | crash => exact ⟨_, rfl⟩
    | again s1 =>
      simp only
      apply ih
      unfold scanIter at hit
      cases hts : s.trySplit c with
      | ret s2 ok => rw [hts] at hit; exact Step.noConfusion hit
      | crash => rw [hts] at hit; exact Step.noConfusion hit
      | again s2 =>
        rw [hts] at hit
        simp only at hit
        obtain ⟨b1, b2, -⟩ := trySplit_again c s s2 hts
        obtain ⟨f1, -, -, -, f5, f6⟩ := fill_again s2 s1 hit
        rw [b2] at f5 f6
        rw [b1] at f1
        rw [f1] at h
        simp only [if_true] at h
        rcases f6 with f6 | f6
        · simp only [f6, if_false]; omega
        · split <;> omega

theorem Scan_returns (c : Codec R) (s : Scanner) : ∃ o, Scan c s = some o :=
  scanLoop_returns c _ s (by split <;> omega)

theorem Read_of_data (r : Reader) (room : Nat) (hd : r.data ≠ []) (hroom : 0 < room)
    (hs : ∀ k ∈ r.sched, 0 < k) :
    ∃ n, 0 < n ∧ n ≤ room ∧ n ≤ r.data.length ∧
      r.Read room = ({ data := r.data.drop n, sched := r.sched.tail }, r.data.take n, none) := by
  have hlen : r.data.length ≠ 0 := fun h => hd (List.length_eq_zero.mp h)
  have hwant : 0 < (match r.sched with | [] => room | k :: _ => k) := by
    cases hsc : r.sched with
    | nil => simpa using hroom
    | cons k t => simpa using hs k (by rw [hsc]; simp)
  refine ⟨min (match r.sched with | [] => room | k :: _ => k) (min room r.data.length),
    ?_, ?_, ?_, ?_⟩
  · omega
  · omega
  · omega
  · simp [Reader.Read, hlen]

theorem readLoop_reads (k : Nat) (s : Scanner) (hd : s.r.data ≠ [])
    (hroom : s.start + s.win.length < s.bufLen) (hs : ∀ k ∈ s.r.sched, 0 < k) :
    ∃ n, 0 < n ∧ s.start + s.win.length + n ≤ s.bufLen ∧ n ≤ s.r.data.length ∧
      Scanner.readLoop k s =
        { s with r := { data := s.r.data.drop n, sched := s.r.sched.tail },
                 win := s.win ++ s.r.data.take n, empties := 0 } := by
  obtain ⟨n, h1, h2, h3, h4⟩ :=
    Read_of_data s.r (s.bufLen - (s.start + s.win.length)) hd (by omega) hs
  refine ⟨n, h1, by omega, h3, ?_⟩
  have hl : 0 < (s.r.data.take n).length := by
    rw [List.length_take]; omega
  unfold Scanner.readLoop
  rw [h4]
  simp only [hl, if_true]

theorem WF_token (s : Scanner) (tk : Option (List Byte)) (h : s.WF) :
    Scanner.WF { s with token := tk } :=
  ⟨h.fits, h.big, h.cap, h.err_ok, h.sched_pos⟩

theorem trySplit_token (c : Codec R) (valid : R → Prop) (hc : c.Lawful valid) (s : Scanner)
    (r : R) (w : List Byte) (hwf : s.WF) (hv : valid r) (hwin : s.win = c.Write r ++ w) :
    s.trySplit c = Step.ret
      { s with start := s.start + c.Size r, win := w, token := some (c.Write r),
               empties := 0 } true := by
  have hsz := hc.size_write r hv
  have hpos : 0 < c.Size r := by
    have := hc.size_eq r hv
    have := hc.header_pos
    omega
  have hne : s.win ≠ [] := by
    intro h0
    rw [h0] at hwin
    have : (c.Write r ++ w).length = 0 := by rw [← hwin]; rfl
    rw [List.length_append] at this
    omega
  have hdec : c.FromBytes s.win = .ok r := by
    rw [hwin]; exact hc.decode_encode r w hv
  have hsp := split_of_ok c s.win (s.err != none) r hne hdec
  have hlen : s.win.length = c.Size r + w.length := by
    rw [hwin, List.length_append, hsz]
  have hfit := hwf.fits
  have htake : s.win.take (c.Size r) = c.Write r := by
    rw [hwin, hsz]; simp
  have hdrop : s.win.drop (c.Size r) = w := by
    rw [hwin, hsz]; simp
  unfold Scanner.trySplit
  rw [hsp]
  simp only [hne, ne_eq, not_false_eq_true, true_or, if_true]
  rw [if_neg (by omega), if_neg (by omega)]
  simp only [hpos, or_true, if_true, htake, hdrop]

theorem trySplit_more (c : Codec R) (valid : R → Prop) (hc : c.Lawful valid) (s : Scanner)
    (r : R) (t : List Byte) (hv : valid r) (hwin : s.win ++ t = c.Write r) (ht : t ≠ [])
    (he : s.err = none) :
    ∃ tk, s.trySplit c = Step.again { s with token := tk } ∧ (s.win ≠ [] → tk = none) := by
  by_cases hne : s.win = []
  · refine ⟨s.token, ?_, fun h => absurd hne h⟩
    have hcond : ¬ (s.win ≠ [] ∨ s.err ≠ none) := by simp [hne, he]
    unfold Scanner.trySplit
    rw [if_neg hcond]
  · obtain ⟨e, h1, h2⟩ := hc.need_more r s.win t hv hwin ht
    have hsp := split_of_insufficient c s.win (s.err != none) e h1 h2
    refine ⟨none, ?_, fun _ => rfl⟩
    unfold Scanner.trySplit
    rw [hsp]
    simp [hne]

theorem WF_read (s : Scanner) (n bl st : Nat) (hwf : s.WF) (he : s.err = none)
    (hbl : s.bufLen ≤ bl) (hcap : (bl : Int) ≤ max 4096 s.maxTokenSize)
    (hn : st + s.win.length + n ≤ bl) :
    Scanner.WF { s with r := { data := s.r.data.drop n, sched := s.r.sched.tail },
                        win := s.win ++ s.r.data.take n, empties := 0, bufLen := bl,
                        start := st } := by
  have hbig := hwf.big
  refine ⟨?_, ?_, hcap, Or.inl he, ?_⟩
  · simp only [List.length_append, List.length_take]; omega
  · simp only; omega
  · intro k hk
    exact hwf.sched_pos k (List.mem_of_mem_tail hk)

theorem fill_reads (s : Scanner) (hwf : s.WF) (he : s.err = none) (hd : s.r.data ≠ [])
    (hgrow : s.win.length = s.bufLen →
      ¬ (s.maxTokenSize ≤ (s.bufLen : Int) ∨ maxInt / 2 < s.bufLen)) :
    ∃ s1, s.fill = Step.again s1 ∧ s1.WF ∧ s1.err = none ∧
      s1.win ++ s1.r.data = s.win ++ s.r.data ∧ s1.r.data.length < s.r.data.length ∧
      s1.token = s.token ∧ s1.maxTokenSize = s.maxTokenSize ∧ s.bufLen ≤ s1.bufLen := by
  have hfit := hwf.fits
  have hbig := hwf.big
  have hcap := hwf.cap
  have hdl : 0 < s.r.data.length := List.length_pos.mpr hd
  obtain ⟨w1, w2, w3, w4, w5, w6, w7, w8⟩ := shift_frame s
  have hwfs : s.shift.WF :=
    ⟨by rw [w1, w4]; omega, by rw [w4]; exact hbig, by rw [w4, w5]; exact hcap,
     by rw [w3, w2]; exact hwf.err_ok, by rw [w2]; exact hwf.sched_pos⟩
  have hes : s.shift.err = none := by rw [w3]; exact he
  have hfull : s.shift.start + s.shift.win.length = s.shift.bufLen →
      s.shift.start = 0 ∧ s.win.length = s.bufLen := by
    unfold Scanner.shift
    split
    · simp only
      intro h; omega
    · rename_i hcond
      intro h
      simp only [not_and_or, not_or] at hcond
      omega
  unfold Scanner.fill
  rw [if_neg (by simp [he])]
  by_cases hf : s.shift.start + s.shift.win.length = s.shift.bufLen
  · obtain ⟨hst, hwl⟩ := hfull hf
    have hg := hgrow hwl
    have hg2 : ¬ (s.shift.maxTokenSize ≤ (s.shift.bufLen : Int) ∨ maxInt / 2 < s.shift.bufLen) := by
      rw [w4, w5]; exact hg
    simp only [not_or, not_le, not_lt] at hg
    rw [if_pos hf, if_neg hg2]
    obtain ⟨g1, g2, g3, g4, g5, g6, g7, g8⟩ := grow_frame s.shift
    rw [w4, w5, if_neg (by omega)] at g8
    have hnew : s.bufLen < s.shift.grow.bufLen := by rw [g8]; omega
    have hwfg : s.shift.grow.WF :=
      ⟨by rw [g7, g1, w1]; omega, by omega, by rw [g4, w5, g8]; omega,
       by rw [g3, g2]; exact hwfs.err_ok, by rw [g2]; exact hwfs.sched_pos⟩
    obtain ⟨n, n1, n2, n3, n4⟩ := readLoop_reads maxConsecutiveEmptyReads s.shift.grow
      (by rw [g2, w2]; exact hd) (by rw [g7, g1, w1]; omega) hwfg.sched_pos
    have hwfr := WF_read s.shift.grow n s.shift.grow.bufLen s.shift.grow.start hwfg
      (by rw [g3]; exact hes) (le_refl _) hwfg.cap n2
    refine ⟨_, by rw [n4], hwfr, ?_, ?_, ?_, ?_, ?_, ?_⟩
    · simp only [g3]; exact hes
    · simp only [g1, g2, w1, w2, List.append_assoc, List.take_append_drop]
    · simp only [g2, w2, List.length_drop]; rw [g2, w2] at n3; omega
    · simp only [g5, w6]
    · simp only [g4, w5]
    · simp only; omega
  · rw [if_neg hf]
    obtain ⟨n, n1, n2, n3, n4⟩ := readLoop_reads maxConsecutiveEmptyReads s.shift
      (by rw [w2]; exact hd) (by have := hwfs.fits; omega) hwfs.sched_pos
    have hwfr := WF_read s.shift n s.shift.bufLen s.shift.start hwfs hes (le_refl _) hwfs.cap n2
    refine ⟨_, by rw [n4], hwfr, ?_, ?_, ?_, ?_, ?_, ?_⟩
    · simp only [hes]
    · simp only [w1, w2, List.append_assoc, List.take_append_drop]
    · simp only [w2, List.length_drop]; rw [w2] at n3; omega
    · simp only [w6]
    · simp only [w5]
    · simp only [w4]; omega

theorem append_split_of_le {α : Type} (w d a rest : List α) (h : w ++ d = a ++ rest)
    (hl : a.length ≤ w.length) : ∃ w1, w = a ++ w1 ∧ rest = w1 ++ d := by
  rcases List.append_eq_append_iff.mp h with ⟨a1, h1, h2⟩ | ⟨c1, h1, h2⟩
  · have h0 : a1 = [] := by
      have := congrArg List.length h1
      simp only [List.length_append] at this
      exact List.length_eq_zero.mp (by omega)
    subst h0
    simp only [List.append_nil] at h1
    simp only [List.nil_append] at h2
    exact ⟨[], by simp [h1], by simp [h2]⟩
  · exact ⟨c1, h1, h2⟩

theorem append_split_of_lt {α : Type} (w d a rest : List α) (h : w ++ d = a ++ rest)
    (hl : w.length < a.length) : ∃ t, w ++ t = a ∧ t ≠ [] ∧ d = t ++ rest := by
  rcases List.append_eq_append_iff.mp h with ⟨a1, h1, h2⟩ | ⟨c1, h1, h2⟩
  · refine ⟨a1, h1.symm, ?_, h2⟩
    intro h0
    subst h0
    simp only [List.append_nil] at h1
    rw [h1] at hl
    omega
  · have := congrArg List.length h1
    simp only [List.length_append] at this
    omega

/-- A pending valid record that the buffer can take is produced as the next
token, however the reads are cut. -/
theorem scanLoop_token (c : Codec R) (valid : R → Prop) (hc : c.Lawful valid) (fuel : Nat) :
    ∀ (s : Scanner) (r : R) (rest : List Byte), s.WF → valid r →
      s.win ++ s.r.data = c.Write r ++ rest → s.admits (c.Size r) →
      s.r.data.length < fuel →
      ∃ s1, scanLoop c fuel s = some (ScanOutcome.ret s1 true) ∧
        s1.token = some (c.Write r) ∧ s1.win ++ s1.r.data = rest ∧ s1.WF ∧
        s1.maxTokenSize = s.maxTokenSize ∧ s.bufLen ≤ s1.bufLen := by
  induction fuel with
  | zero => intro s r rest _ _ _ _ h; omega
  | succ n ih =>
    intro s r rest hwf hv hpend hadm hfuel
    have hsz := hc.size_write r hv
    by_cases hl : (c.Write r).length ≤ s.win.length
    · obtain ⟨w1, hw, hrest⟩ := append_split_of_le _ _ _ _ hpend hl
      have hts := trySplit_token c valid hc s r w1 hwf hv hw
      refine ⟨{ s with start := s.start + c.Size r, win := w1, token := some (c.Write r),
                       empties := 0 }, ?_, rfl, ?_, ?_, rfl, le_refl _⟩
      · unfold scanLoop scanIter
        rw [hts]
      · simp only [hrest]
      · have hfit := hwf.fits
        have hlen : s.win.length = c.Size r + w1.length := by
          rw [hw, List.length_append, hsz]
        exact ⟨by simp only; omega, hwf.big, hwf.cap, hwf.err_ok, hwf.sched_pos⟩
    · simp only [not_le] at hl
      obtain ⟨t, ht1, ht2, ht3⟩ := append_split_of_lt _ _ _ _ hpend hl
      have hd : s.r.data ≠ [] := by
        rw [ht3]; simp [ht2]
      have he : s.err = none := by
        rcases hwf.err_ok with h | ⟨_, h⟩
        · exact h
        · exact absurd h hd
      obtain ⟨tk, hts, -⟩ := trySplit_more c valid hc s r t hv ht1 ht2 he
      have hgrow : s.win.length = s.bufLen →
          ¬ (s.maxTokenSize ≤ (s.bufLen : Int) ∨ maxInt / 2 < s.bufLen) := by
        intro hfull
        rcases hadm with h | ⟨h1, h2⟩
        · omega
        · simp only [not_or, not_le, not_lt]
          omega
      obtain ⟨s1, f1, f2, f3, f4, f5, f6, f7, f8⟩ :=
        fill_reads { s with token := tk } (WF_token s tk hwf) he hd hgrow
      simp only at f4 f5 f7 f8
      have hadm1 : s1.admits (c.Size r) := by
        rcases hadm with h | h
        · exact Or.inl (by omega)
        · exact Or.inr (by rw [f7]; exact h)
      obtain ⟨s2, g1, g2, g3, g4, g5, g6⟩ :=
        ih s1 r rest f2 hv (f4.trans hpend) hadm1 (by omega)
      refine ⟨s2, ?_, g2, g3, g4, by rw [g5, f7], by omega⟩
      unfold scanLoop scanIter
      rw [hts]
      simp only
      rw [f1]
      exact g1

/-- One pass at a recorded end of stream whose leftover window does not decode
to a record: Scan stops, empties the buffer and clears the token. -/
theorem scanIter_at_EOF (c : Codec R) (s : Scanner) (he : s.err = some ScanErr.EOF)
    (hw : s.win = [] ∨ ∃ e, c.FromBytes s.win = .error e ∧ e.isInsufficientData = true) :
    scanIter c s = Step.ret { s with start := 0, win := [], token := none } false := by
  have hsp : split c s.win (s.err != none) = ⟨0, none, none⟩ := by
    rcases hw with hw | ⟨e, h1, h2⟩
    · rw [hw, he]; exact split_nil_eof c
    · exact split_of_insufficient c s.win _ e h1 h2
  have hts : s.trySplit c = Step.again { s with token := none } := by
    unfold Scanner.trySplit
    rw [hsp]
    simp [he]
  unfold scanIter
  rw [hts]
  simp only
  rw [fill_of_err _ (by simp [he])]

theorem scanLoop_at_EOF (c : Codec R) (s : Scanner) (fuel : Nat) (he : s.err = some ScanErr.EOF)
    (hw : s.win = [] ∨ ∃ e, c.FromBytes s.win = .error e ∧ e.isInsufficientData = true) :
    scanLoop c (fuel + 1) s =
      some (ScanOutcome.ret { s with start := 0, win := [], token := none } false) := by
  unfold scanLoop
  rw [scanIter_at_EOF c s he hw]

/-- A clean end of stream: nothing buffered and the reader drained. -/
theorem scanLoop_end (c : Codec R) (s : Scanner) (fuel : Nat) (hwf : s.WF) (hw : s.win = [])
    (hd : s.r.data = []) :
    ∃ s1, scanLoop c (fuel + 2) s = some (ScanOutcome.ret s1 false) ∧ s1.token = none ∧
      s1.err = some ScanErr.EOF ∧ s1.win = [] ∧ s1.r.data = [] ∧ s1.start = 0 ∧
      s1.maxTokenSize = s.maxTokenSize ∧ s1.bufLen = s.bufLen := by
  rcases hwf.err_ok with he | ⟨he, -⟩
  · have hts : s.trySplit c = Step.again s := by
      have hcond : ¬ (s.win ≠ [] ∨ s.err ≠ none) := by simp [hw, he]
      unfold Scanner.trySplit
      rw [if_neg hcond]
    obtain ⟨w1, w2, w3, w4, w5, w6, w7, w8⟩ := shift_frame s
    have hbig := hwf.big
    have hfit := hwf.fits
    have hnf : ¬ (s.shift.start + s.shift.win.length = s.shift.bufLen) := by
      unfold Scanner.shift
      split
      · simp only [hw]; simp; omega
      · rename_i hcond
        simp only [not_and_or, not_or] at hcond
        rw [hw] at hcond ⊢
        simp only [List.length_nil, Nat.add_zero] at hcond ⊢
        omega
    have hread : Scanner.readLoop maxConsecutiveEmptyReads s.shift =
        { s.shift with err := some ScanErr.EOF } := by
      have hdl : s.shift.r.data.length = 0 := by rw [w2, hd]; rfl
      unfold Scanner.readLoop
      simp only [Reader.Read, hdl, if_true]
      rw [setErr_of_none _ _ (by simp only; rw [w3]; exact he)]
      simp
    have hfill : s.fill = Step.again { s.shift with err := some ScanErr.EOF } := by
      unfold Scanner.fill
      rw [if_neg (by simp [he]), if_neg hnf, hread]
    have h2 := scanLoop_at_EOF c { s.shift with err := some ScanErr.EOF } fuel rfl
      (Or.inl (by simp only; rw [w1]; exact hw))
    refine ⟨{ s.shift with err := some ScanErr.EOF, start := 0, win := [], token := none },
      ?_, rfl, rfl, rfl, ?_, rfl, ?_, ?_⟩
    · have : scanLoop c (fuel + 2) s =
          scanLoop c (fuel + 1) { s.shift with err := some ScanErr.EOF } := by
        conv_lhs => unfold scanLoop scanIter
        rw [hts]
        simp only
        rw [hfill]
      rw [this, h2]
    · simp only [w2, hd]
    · simp only [w5]
    · simp only [w4]
  · refine ⟨_, scanLoop_at_EOF c s (fuel + 1) he (Or.inl hw), rfl, he, rfl, hd, rfl, rfl, rfl⟩

theorem fill_tooLong (s : Scanner) (hwf : s.WF) (he : s.err = none)
    (hfull : s.win.length = s.bufLen)
    (hno : s.maxTokenSize ≤ (s.bufLen : Int) ∨ maxInt / 2 < s.bufLen) :
    s.fill = Step.ret { s with err := some ScanErr.ErrTooLong } false := by
  have hfit := hwf.fits
  have hsh : s.shift = s := by
    unfold Scanner.shift
    rw [if_neg (by omega)]
  unfold Scanner.fill
  rw [if_neg (by simp [he]), hsh, if_pos (by omega), if_pos hno, setErr_of_none _ _ he]

/-- A pending valid record longer than the buffer may ever get ends the scan
with ErrTooLong, however the reads are cut. -/
theorem scanLoop_tooLong (c : Codec R) (valid : R → Prop) (hc : c.Lawful valid) (fuel : Nat) :
    ∀ (s : Scanner) (r : R) (rest : List Byte), s.WF → valid r →
      s.win ++ s.r.data = c.Write r ++ rest →
      max 4096 s.maxTokenSize < (c.Size r : Int) →
      s.r.data.length < fuel →
      ∃ s1, scanLoop c fuel s = some (ScanOutcome.ret s1 false) ∧
        s1.err = some ScanErr.ErrTooLong ∧ s1.token = none := by
  induction fuel with
  | zero => intro s r rest _ _ _ _ h; omega
  | succ n ih =>
    intro s r rest hwf hv hpend hbig hfuel
    have hsz := hc.size_write r hv
    have hfit := hwf.fits
    have hcap := hwf.cap
    have h4096 := hwf.big
    have hl : s.win.length < (c.Write r).length := by omega
    obtain ⟨t, ht1, ht2, ht3⟩ := append_split_of_lt _ _ _ _ hpend hl
    have hd : s.r.data ≠ [] := by
      rw [ht3]; simp [ht2]
    have he : s.err = none := by
      rcases hwf.err_ok with h | ⟨_, h⟩
      · exact h
      · exact absurd h hd
    obtain ⟨tk, hts, htk⟩ := trySplit_more c valid hc s r t hv ht1 ht2 he
    by_cases hstop : s.win.length = s.bufLen ∧
        (s.maxTokenSize ≤ (s.bufLen : Int) ∨ maxInt / 2 < s.bufLen)
    · have hne : s.win ≠ [] := by
        intro h0
        rw [h0] at hstop
        simp only [List.length_nil] at hstop
        omega
      have hf := fill_tooLong { s with token := tk } (WF_token s tk hwf) he hstop.1 hstop.2
      refine ⟨{ s with token := tk, err := some ScanErr.ErrTooLong }, ?_, rfl, htk hne⟩
      unfold scanLoop scanIter
      rw [hts]
      simp only
      rw [hf]
    · have hgrow : s.win.length = s.bufLen →
          ¬ (s.maxTokenSize ≤ (s.bufLen : Int) ∨ maxInt / 2 < s.bufLen) :=
        fun h1 h2 => hstop ⟨h1, h2⟩
      obtain ⟨s1, f1, f2, f3, f4, f5, f6, f7, f8⟩ :=
        fill_reads { s with token := tk } (WF_token s tk hwf) he hd hgrow
      simp only at f4 f5 f7 f8
      obtain ⟨s2, g1, g2, g3⟩ :=
        ih s1 r rest f2 hv (f4.trans hpend) (by rw [f7]; exact hbig) (by omega)
      refine ⟨s2, ?_, g2, g3⟩
      unfold scanLoop scanIter
      rw [hts]
      simp only
      rw [f1]
      exact g1

theorem admits_mono (s s1 : Scanner) (n : Nat) (h : s.admits n)
    (hm : s1.maxTokenSize = s.maxTokenSize) (hb : s.bufLen ≤ s1.bufLen) : s1.admits n := by
  rcases h with h | h
  · exact Or.inl (by omega)
  · exact Or.inr (by rw [hm]; exact h)

theorem Record_of_token (c : Codec R) (valid : R → Prop) (hc : c.Lawful valid) (s : Scanner)
    (r : R) (hv : valid r) (ht : s.token = some (c.Write r)) :
    s.Bytes = c.Write r ∧ s.Record c = some r := by
  have hb : s.Bytes = c.Write r := by simp [Scanner.Bytes, ht]
  refine ⟨hb, ?_⟩
  have := hc.decode_encode r [] hv
  rw [List.append_nil] at this
  simp [Scanner.Record, hb, this]

theorem Record_of_no_token (c : Codec R) (valid : R → Prop) (hc : c.Lawful valid) (s : Scanner)
    (ht : s.token = none) : s.Record c = none := by
  obtain ⟨e, h1, -⟩ := hc.short [] (by simpa using hc.header_pos)
  simp [Scanner.Record, Scanner.Bytes, ht, h1]

/-- Scanning a stream that starts with valid records the buffer can take
produces those records as the first tokens, in order, and goes on with what
follows them. -/
theorem scanAll_records (c : Codec R) (valid : R → Prop) (hc : c.Lawful valid) (k : Nat) :
    ∀ (rs : List R) (s : Scanner) (rest : List Byte), s.WF →
      (∀ r ∈ rs, valid r ∧ s.admits (c.Size r)) →
      s.win ++ s.r.data = encodeAll c rs ++ rest →
      ∃ s1, s1.WF ∧ s1.win ++ s1.r.data = rest ∧ s1.maxTokenSize = s.maxTokenSize ∧
        s.bufLen ≤ s1.bufLen ∧
        scanAll c (rs.length + k) s =
          (scanAll c k s1).map
            (fun p => (rs.map (fun r => (c.Write r, some r)) ++ p.1, p.2)) := by
  intro rs
  induction rs with
  | nil =>
    intro s rest hwf _ hpend
    refine ⟨s, hwf, by simpa [encodeAll] using hpend, rfl, le_refl _, ?_⟩
    simp only [List.length_nil, Nat.zero_add, List.map_nil, List.nil_append]
    cases scanAll c k s <;> rfl
  | cons r rs ih =>
    intro s rest hwf hall hpend
    obtain ⟨hv, hadm⟩ := hall r (List.mem_cons_self _ _)
    have hpend1 : s.win ++ s.r.data = c.Write r ++ (encodeAll c rs ++ rest) := by
      rw [hpend]; simp [encodeAll]
    obtain ⟨s1, a1, a2, a3, a4, a5, a6⟩ :=
      scanLoop_token c valid hc (s.r.data.length + 2) s r _ hwf hv hpend1 hadm (by omega)
    obtain ⟨b1, b2⟩ := Record_of_token c valid hc s1 r hv a2
    obtain ⟨s2, c1, c2, c3, c4, c5⟩ := ih s1 rest a4
      (fun r1 h1 => ⟨(hall r1 (List.mem_cons_of_mem _ h1)).1,
        admits_mono s s1 _ (hall r1 (List.mem_cons_of_mem _ h1)).2 a5 a6⟩) a3
    refine ⟨s2, c1, c2, by rw [c3, a5], by omega, ?_⟩
    have hS : Scan c s = some (ScanOutcome.ret s1 true) := a1
    have hlen : (r :: rs).length + k = (rs.length + k) + 1 := by simp; omega
    rw [hlen]
    conv_lhs => unfold scanAll
    rw [hS]
    simp only
    rw [c5, b1, b2]
    cases scanAll c k s2 <;> simp

theorem specFromBytes_header (a b x y : Nat) (body : List Byte)
    (ha : a * 256 + b < 32768) (hx : x * 256 + y < 32768) :
    specFromBytes (a :: b :: x :: y :: body) =
      if body.length < (a * 256 + b) + (x * 256 + y) then .error DecodeErr.insufficientData
      else .ok { key := body.take (a * 256 + b),
                 value := (body.drop (a * 256 + b)).take (x * 256 + y) } := by
  simp only [specFromBytes]
  rw [if_neg (show ¬ (32768 ≤ a * 256 + b ∨ 32768 ≤ x * 256 + y) by omega)]

theorem specCodec_lawful : specCodec.Lawful specValid where
  header_pos := by decide
  short := by
    intro data h
    refine ⟨DecodeErr.insufficientData, ?_, rfl⟩
    match data, h with
    | [], _ => rfl
    | [_], _ => rfl
    | [_, _], _ => rfl
    | [_, _, _], _ => rfl
    | _ :: _ :: _ :: _ :: _, h =>
      simp only [specCodec, List.length_cons] at h
      omega
  decode_encode := by
    intro r rest hv
    obtain ⟨hk, hvl⟩ := hv
    have e1 : r.key.length / 256 * 256 + r.key.length % 256 = r.key.length := by omega
    have e2 : r.value.length / 256 * 256 + r.value.length % 256 = r.value.length := by omega
    show specFromBytes (specWrite r ++ rest) = .ok r
    have hw : specWrite r ++ rest =
        r.key.length / 256 :: r.key.length % 256 :: r.value.length / 256 ::
          r.value.length % 256 :: (r.key ++ (r.value ++ rest)) := by
      simp [specWrite]
    rw [hw, specFromBytes_header _ _ _ _ _ (by omega) (by omega), e1, e2]
    rw [if_neg (by simp only [List.length_append]; omega)]
    simp
  need_more := by
    intro r p t hv hpt ht
    obtain ⟨hk, hvl⟩ := hv
    have e1 : r.key.length / 256 * 256 + r.key.length % 256 = r.key.length := by omega
    have e2 : r.value.length / 256 * 256 + r.value.length % 256 = r.value.length := by omega
    refine ⟨DecodeErr.insufficientData, ?_, rfl⟩
    show specFromBytes p = .error DecodeErr.insufficientData
    have hpt2 : p ++ t = r.key.length / 256 :: r.key.length % 256 :: r.value.length / 256 ::
          r.value.length % 256 :: (r.key ++ r.value) := by
      rw [hpt]; rfl
    match p, hpt2 with
    | [], _ => rfl
    | [_], _ => rfl
    | [_, _], _ => rfl
    | [_, _, _], _ => rfl
    | a :: b :: x :: y :: body, h =>
      simp only [List.cons_append, List.cons.injEq] at h
      obtain ⟨ha, hb, hx, hy, hbody⟩ := h
      subst ha hb hx hy
      rw [specFromBytes_header _ _ _ _ _ (by omega) (by omega), e1, e2]
      have hlen := congrArg List.length hbody
      simp only [List.length_append] at hlen
      have htl : 0 < t.length := List.length_pos.mpr ht
      rw [if_pos (by omega)]
  size_write := by
    intro r _
    simp [specCodec, specWrite]
    omega
  size_eq := by
    intro r _
    simp [specCodec]

theorem setErr_err_EOF (s : Scanner) (e : ScanErr) (h : (s.setErr e).err = some ScanErr.EOF) :
    e = ScanErr.EOF := by
  unfold Scanner.setErr at h
  split at h
  · simpa using h
  · rename_i hc
    exact absurd (Or.inr h) hc

theorem Err_none_iff (s : Scanner) :
    s.Err = none ↔ s.err = none ∨ s.err = some ScanErr.EOF := by
  unfold Scanner.Err
  split
  · rename_i h; simp [h]
  · rename_i h; simp [h]

/-- A pass of Scan that returns false without an error to report went through
the shutdown at the end of the stream: buffer emptied, token cleared. -/
theorem scanIter_false_clean (c : Codec R) (s s1 : Scanner)
    (h : scanIter c s = Step.ret s1 false) (hE : s1.Err = none) :
    s1.err = some ScanErr.EOF ∧ s1.win = [] ∧ s1.token = none ∧ s1.start = 0 := by
  rw [Err_none_iff] at hE
  unfold scanIter at h
  cases hts : s.trySplit c with
  | crash => rw [hts] at h; exact Step.noConfusion h
  | ret s2 ok =>
    rw [hts] at h
    simp only at h
    injection h with h1 h2
    subst h1 h2
    exfalso
    unfold Scanner.trySplit at hts
    split at hts
    · simp only at hts
      split at hts
      · injection hts with h1 _
        subst h1
        rcases hE with hE | hE
        · exact setErr_err_ne_none _ _ hE
        · exact ScanErr.noConfusion (setErr_err_EOF _ _ hE)
      · split at hts
        · exact Step.noConfusion hts
        · split at hts
          · injection hts with h1 _
            subst h1
            rcases hE with hE | hE
            · exact setErr_err_ne_none _ _ hE
            · exact ScanErr.noConfusion (setErr_err_EOF _ _ hE)
          · split at hts
            · split at hts
              · injection hts with _ h2
                exact Bool.noConfusion h2
              · split at hts
                · exact Step.noConfusion hts
                · injection hts with _ h2
                  exact Bool.noConfusion h2
            · exact Step.noConfusion hts
    · exact Step.noConfusion hts
  | again s2 =>
    rw [hts] at h
    simp only at h
    obtain ⟨b1, b2, b3, b4, b5⟩ := trySplit_again c s s2 hts
    unfold Scanner.fill at h
    split at h
    · rename_i he
      injection h with h1 _
      subst h1
      simp only at hE ⊢
      have htok : s2.token = none := by
        rcases b5 with ⟨_, h0, _⟩ | ⟨_, h0⟩
        · rw [b1] at he; exact absurd h0 he
        · exact h0
      refine ⟨?_, trivial, htok, trivial⟩
      rcases hE with hE | hE
      · exact absurd hE he
      · exact hE
    · split at h
      · split at h
        · injection h with h1 _
          subst h1
          exfalso
          rcases hE with hE | hE
          · exact setErr_err_ne_none _ _ hE
          · exact ScanErr.noConfusion (setErr_err_EOF _ _ hE)
        · exact Step.noConfusion h
      · exact Step.noConfusion h

theorem scanLoop_false_clean (c : Codec R) (fuel : Nat) :
    ∀ (s s1 : Scanner), scanLoop c fuel s = some (ScanOutcome.ret s1 false) → s1.Err = none →
      s1.err = some ScanErr.EOF ∧ s1.win = [] ∧ s1.token = none ∧ s1.start = 0 := by
  induction fuel with
  | zero => intro s s1 h; simp [scanLoop] at h
  | succ n ih =>
    intro s s1 h hE
    unfold scanLoop at h
    cases hit : scanIter c s with
    | crash => rw [hit] at h; simp at h
    | ret s2 ok =>
      rw [hit] at h
      simp only [Option.some.injEq, ScanOutcome.ret.injEq] at h
      obtain ⟨h1, h2⟩ := h
      subst h1 h2
      exact scanIter_false_clean c s s2 hit hE
    | again s2 =>
      rw [hit] at h
      exact ih s2 s1 h hE

/-- Scan on a scanner that already shut down at the end of the stream changes
nothing and returns false again. -/
theorem Scan_exhausted (c : Codec R) (s : Scanner) (he : s.err = some ScanErr.EOF)
    (hw : s.win = []) (ht : s.token = none) (hs : s.start = 0) :
    Scan c s = some (ScanOutcome.ret s false) := by
  have := scanLoop_at_EOF c s (s.r.data.length + 1) he (Or.inl hw)
  unfold Scan
  rw [this]
  cases s
  simp only at hw ht hs
  subst hw ht hs
  rfl

theorem wrapInt_of_range (x : Int) (h1 : -(2 ^ 63) ≤ x) (h2 : x < 2 ^ 63) : wrapInt x = x := by
  unfold wrapInt
  omega

theorem wrapInt_le (x : Int) (h1 : -(2 ^ 63) ≤ x) : wrapInt x ≤ x := by
  unfold wrapInt
  omega

theorem NewScanner_WF (c : Codec R) (data : List Byte) (sched : List Nat) (M : Int)
    (hs : ∀ k ∈ sched, 0 < k) : (NewScanner c { data := data, sched := sched } M).WF :=
  ⟨by simp [NewScanner], by simp [NewScanner], by simp [NewScanner], Or.inl rfl, hs⟩

/-- A stream of valid records the buffer can take is scanned into exactly
those records, and the scan ends without an error. -/
theorem scanAll_complete (c : Codec R) (valid : R → Prop) (hc : c.Lawful valid)
    (rs : List R) (s : Scanner) (fuel : Nat) (hwf : s.WF)
    (hall : ∀ r ∈ rs, valid r ∧ s.admits (c.Size r))
    (hpend : s.win ++ s.r.data = encodeAll c rs) (hfuel : rs.length < fuel) :
    ∃ sf, scanAll c fuel s = some (rs.map (fun r => (c.Write r, some r)), sf) ∧
      sf.err = some ScanErr.EOF ∧ sf.token = none := by
  obtain ⟨k, hk⟩ : ∃ k, fuel = rs.length + (k + 1) := ⟨fuel - rs.length - 1, by omega⟩
  obtain ⟨s1, a1, a2, a3, a4, a5⟩ :=
    scanAll_records c valid hc (k + 1) rs s [] hwf hall (by rw [hpend, List.append_nil])
  have hw : s1.win = [] := (List.append_eq_nil.mp a2).1
  have hd : s1.r.data = [] := (List.append_eq_nil.mp a2).2
  obtain ⟨sf, b1, b2, b3, -⟩ := scanLoop_end c s1 s1.r.data.length a1 hw hd
  have hS : Scan c s1 = some (ScanOutcome.ret sf false) := b1
  refine ⟨sf, ?_, b3, b2⟩
  rw [hk, a5]
  conv_lhs => unfold scanAll
  rw [hS]
  simp

/-- A stream of valid records the buffer can take, followed by a valid record
that is longer than the buffer may ever get: the scan produces the records
before it and then stops with ErrTooLong. -/
theorem scanAll_tooLong (c : Codec R) (valid : R → Prop) (hc : c.Lawful valid)
    (rs : List R) (big : R) (rest : List Byte) (s : Scanner) (fuel : Nat) (hwf : s.WF)
    (hall : ∀ r ∈ rs, valid r ∧ s.admits (c.Size r)) (hv : valid big)
    (hbig : max 4096 s.maxTokenSize < (c.Size big : Int))
    (hpend : s.win ++ s.r.data = encodeAll c rs ++ (c.Write big ++ rest))
    (hfuel : rs.length < fuel) :
    ∃ sf, scanAll c fuel s = some (rs.map (fun r => (c.Write r, some r)), sf) ∧
      sf.err = some ScanErr.ErrTooLong ∧ sf.token = none := by
  obtain ⟨k, hk⟩ : ∃ k, fuel = rs.length + (k + 1) := ⟨fuel - rs.length - 1, by omega⟩
  obtain ⟨s1, a1, a2, a3, a4, a5⟩ :=
    scanAll_records c valid hc (k + 1) rs s _ hwf hall hpend
  obtain ⟨sf, b1, b2, b3⟩ := scanLoop_tooLong c valid hc (s1.r.data.length + 2) s1 big rest a1
    hv a2 (by rw [a3]; exact hbig) (by omega)
  have hS : Scan c s1 = some (ScanOutcome.ret sf false) := b1
  refine ⟨sf, ?_, b2, b3⟩
  rw [hk, a5]
  conv_lhs => unfold scanAll
  rw [hS]
  simp

/-- Driving a cursor over a stream that starts with valid records the buffer
can take writes their encodings to the sink, in order, and goes on with what
follows them. -/
theorem drive_records (c : Codec R) (valid : R → Prop) (hc : c.Lawful valid) (k : Nat) :
    ∀ (rs : List R) (cur : scannerCursor R) (w rest : List Byte), cur.scanner.WF →
      (∀ r ∈ rs, valid r ∧ cur.scanner.admits (c.Size r)) →
      cur.scanner.win ++ cur.scanner.r.data = encodeAll c rs ++ rest →
      ∃ cur1 : scannerCursor R, cur1.scanner.WF ∧
        cur1.scanner.win ++ cur1.scanner.r.data = rest ∧
        cur1.scanner.maxTokenSize = cur.scanner.maxTokenSize ∧
        cur.scanner.bufLen ≤ cur1.scanner.bufLen ∧
        drive c (rs.length + k) cur w = drive c k cur1 (w ++ encodeAll c rs) := by
  intro rs
  induction rs with
  | nil =>
    intro cur w rest hwf _ hpend
    exact ⟨cur, hwf, by simpa [encodeAll] using hpend, rfl, le_refl _, by simp [encodeAll]⟩
  | cons r rs ih =>
    intro cur w rest hwf hall hpend
    obtain ⟨hv, hadm⟩ := hall r (List.mem_cons_self _ _)
    have hpend1 : cur.scanner.win ++ cur.scanner.r.data =
        c.Write r ++ (encodeAll c rs ++ rest) := by
      rw [hpend]; simp [encodeAll]
    obtain ⟨s1, a1, a2, a3, a4, a5, a6⟩ :=
      scanLoop_token c valid hc (cur.scanner.r.data.length + 2) cur.scanner r _ hwf hv hpend1
        hadm (by omega)
    obtain ⟨b1, b2⟩ := Record_of_token c valid hc s1 r hv a2
    obtain ⟨cur2, c1, c2, c3, c4, c5⟩ := ih { record := some r, scanner := s1 }
      (w ++ c.Write r) rest a4
      (fun r1 h1 => ⟨(hall r1 (List.mem_cons_of_mem _ h1)).1,
        admits_mono cur.scanner s1 _ (hall r1 (List.mem_cons_of_mem _ h1)).2 a5 a6⟩) a3
    refine ⟨cur2, c1, c2, by rw [c3]; exact a5, le_trans a6 c4, ?_⟩
    have hS : Scan c cur.scanner = some (ScanOutcome.ret s1 true) := a1
    have hnext : cur.next c = some { record := some r, scanner := s1 } := by
      simp [scannerCursor.next, hS, b2]
    have hlen : (r :: rs).length + k = (rs.length + k) + 1 := by simp; omega
    rw [hlen]
    conv_lhs => unfold drive
    rw [hnext]
    simp only [scannerCursor.write, scannerCursor.key]
    rw [c5]
    simp [encodeAll]

/-- Driving a cursor whose next Scan returns false with the token cleared
stops at once and leaves the sink as it is. -/
theorem drive_stop (c : Codec R) (valid : R → Prop) (hc : c.Lawful valid) (k : Nat)
    (cur : scannerCursor R) (w : List Byte) (sf : Scanner)
    (hS : Scan c cur.scanner = some (ScanOutcome.ret sf false)) (ht : sf.token = none) :
    drive c (k + 1) cur w = some ({ record := none, scanner := sf }, w) := by
  have hrec := Record_of_no_token c valid hc sf ht
  have hnext : cur.next c = some { record := none, scanner := sf } := by
    simp [scannerCursor.next, hS, hrec]
  unfold drive
  rw [hnext]
  simp [scannerCursor.write, scannerCursor.key]

theorem NewScanner_admits (c : Codec R) (valid : R → Prop) (hc : c.Lawful valid)
    (rd : Reader) (M : Int) (r : R) (hv : valid r)
    (h : c.Size r ≤ 4096 ∨
      (((c.Key r).length : Int) + (c.Value r).length ≤ M ∧ M + c.metaLength ≤ 2 ^ 62)) :
    (NewScanner c rd M).admits (c.Size r) := by
  have hsz := hc.size_eq r hv
  rcases h with h | ⟨h1, h2⟩
  · exact Or.inl (by simpa [NewScanner] using h)
  · refine Or.inr ⟨?_, ?_⟩
    · have hw : wrapInt (M + c.metaLength) = M + c.metaLength :=
        wrapInt_of_range _ (by omega) (by omega)
      simp only [NewScanner, hw]
      omega
    · have : maxInt / 2 + 1 = 2 ^ 62 := by decide
      omega

theorem NewScanner_admits_nowrap (c : Codec R) (valid : R → Prop) (hc : c.Lawful valid)
    (rd : Reader) (M : Int) (r : R) (hv : valid r)
    (h1 : ((c.Key r).length : Int) + (c.Value r).length ≤ M)
    (h2 : M + c.metaLength < 2 ^ 63) (h3 : c.Size r ≤ 2 ^ 62) :
    (NewScanner c rd M).admits (c.Size r) := by
  have hsz := hc.size_eq r hv
  refine Or.inr ⟨?_, ?_⟩
  · have hw : wrapInt (M + c.metaLength) = M + c.metaLength :=
      wrapInt_of_range _ (by omega) h2
    simp only [NewScanner, hw]
    omega
  · have : maxInt / 2 + 1 = 2 ^ 62 := by decide
    omega

theorem NewScanner_too_small (c : Codec R) (valid : R → Prop) (hc : c.Lawful valid)
    (rd : Reader) (M : Int) (r : R) (hv : valid r) (hM : -(2 ^ 63) ≤ M)
    (hover : M < ((c.Key r).length : Int) + (c.Value r).length) (hbig : 4096 < c.Size r) :
    max 4096 (NewScanner c rd M).maxTokenSize < (c.Size r : Int) := by
  have hsz := hc.size_eq r hv
  have hw := wrapInt_le (M + c.metaLength) (by omega)
  simp only [NewScanner]
  omega

theorem trySplit_fatal (c : Codec R) (s : Scanner) (e : DecodeErr) (hne : s.win ≠ [])
    (h : c.FromBytes s.win = .error e) (he : e.isInsufficientData = false) :
    s.trySplit c = Step.ret (s.setErr (ScanErr.decode e)) false := by
  have hsp := split_of_fatal c s.win (s.err != none) e hne h he
  unfold Scanner.trySplit
  rw [hsp]
  simp [hne]

theorem Scan_fatal (c : Codec R) (s : Scanner) (e : DecodeErr) (hne : s.win ≠ [])
    (h : c.FromBytes s.win = .error e) (he : e.isInsufficientData = false) :
    Scan c s = some (ScanOutcome.ret (s.setErr (ScanErr.decode e)) false) := by
  unfold Scan scanLoop scanIter
  rw [trySplit_fatal c s e hne h he]

/-! ### Claims about `split`, `Scan` and the cursor -/

/-- C1, counterexample: on the five byte buffer `[0, 1, 0, 1, 97]` (a full meta
header, one of the two declared bytes) the decoder reports
`ErrInsufficientData`, yet `split` with `atEOF = true` returns `(0, nil, nil)`,
no error; and scanning the stream `streamCut`, which ends in the middle of its
second record, yields the first record and then ends with `Err() = nil`. -/
theorem split_cut_record_no_error :
    ([0, 1, 0, 1, 97] : List Byte) ≠ [] ∧
    specCodec.FromBytes [0, 1, 0, 1, 97] = .error DecodeErr.insufficientData ∧
    (split specCodec [0, 1, 0, 1, 97] true).err = none ∧
    (scanAll specCodec 3 (NewScanner specCodec { data := streamCut, sched := [] } 16)).map
        (fun p => (p.1, p.2.Err)) = some ([([0, 1, 0, 1, 97, 1], some recA)], none) :=
  ⟨by decide, rfl, by decide, by decide⟩

/-- C1, amended: for every buffer, empty or not, on which `FromBytes` reports
`ErrInsufficientData` (directly or wrapped), `split` with `atEOF = true` returns
`(0, nil, nil)`; and a `Scan` that has met the end of the stream with such a
buffer left over returns false, drops the leftover bytes, produces no token and
leaves `Err()` nil. -/
theorem split_insufficient_at_end (c : Codec R) (data : List Byte) (e : DecodeErr)
    (s : Scanner) (h : c.FromBytes data = .error e)
    (he : e.isInsufficientData = true) (hwin : s.win = data)
    (herr : s.err = some ScanErr.EOF) :
    split c data true = { advance := 0, token := none, err := none } ∧
    Scan c s = some (ScanOutcome.ret { s with start := 0, win := [], token := none } false) ∧
    Scanner.Err { s with start := 0, win := [], token := none } = none := by
  refine ⟨split_of_insufficient c data true e h he, ?_, ?_⟩
  · exact scanLoop_at_EOF c s (s.r.data.length + 1) herr (Or.inr ⟨e, by rw [hwin]; exact h, he⟩)
  · simp [Scanner.Err, herr]

/-- Witness for C1, amended: the cut record `[0, 1, 0, 1, 97]` left over at the
end of a stream. -/
theorem split_insufficient_at_end_witness :
    split specCodec [0, 1, 0, 1, 97] true = { advance := 0, token := none, err := none } ∧
    Scan specCodec scanCutTail =
      some (ScanOutcome.ret { scanCutTail with start := 0, win := [], token := none } false) ∧
    Scanner.Err { scanCutTail with start := 0, win := [], token := none } = none :=
  split_insufficient_at_end specCodec [0, 1, 0, 1, 97] DecodeErr.insufficientData scanCutTail
    rfl rfl rfl rfl

/-- C3: if `FromBytes(data)` succeeds with record `r`, `data` is not empty and
`r.Size() <= len(data)`, then for either value of `atEOF` `split` returns
advance `r.Size()`, the token `data[:r.Size()]` and a nil error; the token has
exactly `advance` bytes, and `data` is the token followed by the bytes after
it, which are neither consumed nor part of the token. -/
theorem split_token_boundary (c : Codec R) (data : List Byte) (atEOF : Bool) (r : R)
    (hne : data ≠ []) (h : c.FromBytes data = .ok r) (hsz : c.Size r ≤ data.length) :
    split c data atEOF =
      { advance := c.Size r, token := some (data.take (c.Size r)), err := none } ∧
    (data.take (c.Size r)).length = c.Size r ∧
    data.take (c.Size r) ++ data.drop (c.Size r) = data := by
  refine ⟨split_of_ok c data atEOF r hne h, ?_, List.take_append_drop _ _⟩
  rw [List.length_take]
  omega

/-- Witness for C3: the encoding of `recA` followed by two more bytes. -/
theorem split_token_boundary_witness :
    split specCodec [0, 1, 0, 1, 97, 1, 7, 7] true =
      { advance := 6, token := some [0, 1, 0, 1, 97, 1], err := none } ∧
    ([0, 1, 0, 1, 97, 1] : List Byte).length = 6 ∧
    ([0, 1, 0, 1, 97, 1] : List Byte) ++ [7, 7] = [0, 1, 0, 1, 97, 1, 7, 7] :=
  split_token_boundary specCodec [0, 1, 0, 1, 97, 1, 7, 7] true recA (by decide) rfl
    (by decide)

/-- C6: once a `next()` call has found the stream cleanly ended (its `Scan`
returned false with `Err()` nil) and left the record absent, any number of
further `next()` calls leave the cursor, record and scanner, exactly as it is:
the record stays absent and `key()` returns nil. -/
theorem cursor_exhausted_stays (c : Codec R) (prev cur : scannerCursor R) (n : Nat)
    (hnext : prev.next c = some cur)
    (hfalse : Scan c prev.scanner = some (ScanOutcome.ret cur.scanner false))
    (hclean : cur.scanner.Err = none) (habs : cur.record = none) :
    cur.nextN c n = some cur ∧
    (cur.nextN c n).map (fun s => s.record) = some none ∧
    (cur.nextN c n).map (fun s => (s.key c).1) = some none := by
  obtain ⟨h1, h2, h3, h4⟩ :=
    scanLoop_false_clean c _ prev.scanner cur.scanner hfalse hclean
  have hS := Scan_exhausted c cur.scanner h1 h2 h3 h4
  have hrec : cur.scanner.Record c = none := by
    unfold scannerCursor.next at hnext
    rw [hfalse] at hnext
    simp only [Option.some.injEq] at hnext
    rw [← habs, ← hnext]
  have hstep : cur.next c = some cur := by
    unfold scannerCursor.next
    rw [hS]
    simp only [hrec, ← habs]
  have hall : cur.nextN c n = some cur := by
    induction n with
    | zero => rfl
    | succ k ih =>
      unfold scannerCursor.nextN
      rw [hstep]
      exact ih
  refine ⟨hall, ?_, ?_⟩
  · rw [hall]; simp [habs]
  · rw [hall]; simp [scannerCursor.key, habs]

/-- Witness for C6: a cursor over the empty stream, three more `next()` calls
after the one that met the end. -/
theorem cursor_exhausted_stays_witness :
    scannerCursor.nextN specCodec 3 { record := none, scanner := scanDone } =
      some { record := none, scanner := scanDone } ∧
    (scannerCursor.nextN specCodec 3 { record := none, scanner := scanDone }).map
      (fun s => s.record) = some none ∧
    (scannerCursor.nextN specCodec 3 { record := none, scanner := scanDone }).map
      (fun s => (s.key specCodec).1) = some none :=
  cursor_exhausted_stays specCodec
    (newScannerCursor (NewScanner specCodec { data := [], sched := [] } 16))
    { record := none, scanner := scanDone } 3 (by decide) (by decide) (by decide) rfl

/-- C7, failing input: the cursor over `streamBadTail`, delivered in one read,
holds `recA` after its first `next()`; the `Scan` of the second `next()`
returns false because `split` returned a fatal decode error, and after that
`next()` the cursor still holds `recA` and `key()` still returns its key: the
record is kept, not absent. -/
theorem cursor_keeps_record_after_decode_error :
    scannerCursor.next specCodec
        (newScannerCursor (NewScanner specCodec { data := streamBadTail, sched := [] } 16)) =
      some { record := some recA, scanner := scanBadTail } ∧
    Scan specCodec scanBadTail =
      some (ScanOutcome.ret
        { scanBadTail with err := some (ScanErr.decode (DecodeErr.malformed 1)) } false) ∧
    (scannerCursor.next specCodec { record := some recA, scanner := scanBadTail }).map
      (fun s => (s.record, (s.key specCodec).1)) = some (some recA, some [97]) :=
  ⟨by decide, by decide, by decide⟩

/-- Advance to absent at a clean end: for every cursor state, if the `Scan`
made by `next()` returns false with no error to report (`Err()` nil: the stream
ended), then after `next()` the cursor's record is absent and `key()` returns
nil, whatever record was held before; the decoder is taken to reject an empty
buffer. -/
theorem cursor_absent_at_clean_end (c : Codec R) (s : scannerCursor R) (sc : Scanner)
    (hnil : ∀ r, c.FromBytes [] ≠ .ok r)
    (hfalse : Scan c s.scanner = some (ScanOutcome.ret sc false)) (hclean : sc.Err = none) :
    s.next c = some { record := none, scanner := sc } ∧
    (scannerCursor.key c { record := none, scanner := sc }).1 = none := by
  obtain ⟨-, -, h3, -⟩ := scanLoop_false_clean c _ s.scanner sc hfalse hclean
  have hrec : sc.Record c = none := by
    unfold Scanner.Record Scanner.Bytes
    rw [h3]
    simp only [Option.getD_none]
    cases hfb : c.FromBytes [] with
    | error e => rfl
    | ok r => exact absurd hfb (hnil r)
  refine ⟨?_, rfl⟩
  unfold scannerCursor.next
  rw [hfalse]
  simp only [hrec]

/-- Instance of the advance to absent at a clean end: a cursor that holds
`recA` over a scanner whose stream has just run dry. -/
theorem cursor_absent_at_clean_end_witness :
    scannerCursor.next specCodec
        { record := some recA, scanner := { scanDone with err := none } } =
      some { record := none, scanner := scanDone } ∧
    (scannerCursor.key specCodec { record := none, scanner := scanDone }).1 = none :=
  cursor_absent_at_clean_end specCodec
    { record := some recA, scanner := { scanDone with err := none } } scanDone
    (fun r h => Except.noConfusion h) (by decide) (by decide)

/-- Sibling path of the C7 failing input: the same stream `streamBadTail`
handed out one byte per read. The second `next()` starts from
`scanBadTailBytewise`; its `Scan` first clears the token on the incomplete
header and only then meets the fatal decode error, so the cursor's record
becomes absent and `key()` returns nil. -/
theorem cursor_absent_after_decode_error_bytewise :
    (scannerCursor.next specCodec { record := some recA, scanner := scanBadTailBytewise }).map
      (fun s => (s.record, (s.key specCodec).1, s.scanner.Err)) =
      some (none, none, some (ScanErr.decode (DecodeErr.malformed 1))) := by
  decide

/-- Sibling path of the C7 failing input: when the `Scan` made by `next()`
returns false with `ErrTooLong` on a valid record too long for the buffer, the
token has been cleared and the cursor's record becomes absent, whatever record
was held before. -/
theorem cursor_absent_after_too_long (c : Codec R) (valid : R → Prop) (hc : c.Lawful valid)
    (cur : scannerCursor R) (big : R) (rest : List Byte) (hwf : cur.scanner.WF)
    (hv : valid big)
    (hpend : cur.scanner.win ++ cur.scanner.r.data = c.Write big ++ rest)
    (hbig : max 4096 cur.scanner.maxTokenSize < (c.Size big : Int)) :
    (cur.next c).map (fun s => (s.record, (s.key c).1, s.scanner.Err)) =
      some (none, none, some ScanErr.ErrTooLong) := by
  obtain ⟨sf, h1, h2, h3⟩ := scanLoop_tooLong c valid hc (cur.scanner.r.data.length + 2)
    cur.scanner big rest hwf hv hpend hbig (by omega)
  have hS : Scan c cur.scanner = some (ScanOutcome.ret sf false) := h1
  have hrec := Record_of_no_token c valid hc sf h3
  unfold scannerCursor.next
  rw [hS]
  simp [hrec, scannerCursor.key, Scanner.Err, h2]

/-- C8: `key()` is a pure read: the cursor after the call, its record and its
scanner (buffer, position, token, error), is the cursor before the call, so no
`Scan` took place; and a second `key()` returns what the first returned. -/
theorem key_pure_read (c : Codec R) (s : scannerCursor R) :
    (s.key c).2 = s ∧ (s.key c).2.record = s.record ∧ (s.key c).2.scanner = s.scanner ∧
    ((s.key c).2.key c).1 = (s.key c).1 := by
  have h : (s.key c).2 = s := by
    unfold scannerCursor.key
    cases s.record <;> rfl
  refine ⟨h, ?_, ?_, ?_⟩ <;> rw [h]

/-- C9: `key()` returns nil exactly when the cursor holds no record and
otherwise the key of the record held; a cursor just built by
`newScannerCursor` holds no record, its `key()` is nil, and its scanner is the
one handed in, untouched. -/
theorem key_result (c : Codec R) (s : scannerCursor R) (r : R) (sc : Scanner) :
    ((s.key c).1 = none ↔ s.record = none) ∧
    (scannerCursor.key c { record := some r, scanner := sc }).1 = some (c.Key r) ∧
    (scannerCursor.key c { record := none, scanner := sc }).1 = none ∧
    (newScannerCursor sc : scannerCursor R).record = none ∧
    (scannerCursor.key c (newScannerCursor sc)).1 = none ∧
    (newScannerCursor sc : scannerCursor R).scanner = sc := by
  refine ⟨?_, rfl, rfl, rfl, rfl, rfl⟩
  unfold scannerCursor.key
  cases s.record <;> simp

/-- C10: on a cursor whose record is absent `write(w)` leaves the sink and the
cursor as they are; on a cursor that holds a record `r` it appends to the sink
exactly the bytes of one `r.Write` and leaves the cursor, record and scanner,
as it is. -/
theorem write_guard (c : Codec R) (r : R) (sc : Scanner) (w : List Byte) :
    scannerCursor.write c { record := none, scanner := sc } w =
      ({ record := none, scanner := sc }, w) ∧
    scannerCursor.write c { record := some r, scanner := sc } w =
      ({ record := some r, scanner := sc }, w ++ c.Write r) :=
  ⟨rfl, rfl⟩

theorem recBig_lengths : recBig.key.length = 5000 ∧ recBig.value.length = 0 :=
  ⟨List.length_replicate 5000 0, rfl⟩

theorem recBig_valid : specValid recBig := by
  unfold specValid
  rw [recBig_lengths.1, recBig_lengths.2]
  exact ⟨by decide, by decide⟩

theorem recBig_Size : specCodec.Size recBig = 5004 := by
  show 4 + recBig.key.length + recBig.value.length = 5004
  rw [recBig_lengths.1, recBig_lengths.2]

theorem recBig_key_value :
    ((specCodec.Key recBig).length : Int) + (specCodec.Value recBig).length = 5000 := by
  show ((recBig.key.length : Nat) : Int) + ((recBig.value.length : Nat) : Int) = 5000
  rw [recBig_lengths.1, recBig_lengths.2]
  rfl

theorem encodeAll_singleton (c : Codec R) (r : R) : encodeAll c [r] = c.Write r := by
  simp [encodeAll]

theorem recBig_too_long (rd : Reader) :
    max 4096 (NewScanner specCodec rd (2 ^ 63 - 1)).maxTokenSize <
      (specCodec.Size recBig : Int) := by
  rw [recBig_Size]
  have : wrapInt (2 ^ 63 - 1 + ((4 : Nat) : Int)) = -(2 ^ 63) + 3 := by
    unfold wrapInt
    norm_num
  show max 4096 (wrapInt (2 ^ 63 - 1 + ((4 : Nat) : Int))) < ((5004 : Nat) : Int)
  rw [this]
  norm_num

theorem replicate_one_pos (n : Nat) : ∀ k ∈ List.replicate n 1, 0 < k := by
  intro k hk
  rw [List.eq_of_mem_replicate hk]
  exact Nat.one_pos

/-- C2, failing input: `NewScanner(r, math.MaxInt64)` over the stream holding
the one valid record `recBig` (5000 bytes of key and value, at most
`maxScanTokenSize`). The sum `maxScanTokenSize + metaLength` wraps around to a
negative token limit, and the scanner produces no record at all: the first
`Scan` returns false with `ErrTooLong`, whether the stream is read all at once
or one byte per read. -/
theorem scan_int_wrap_loses_record :
    specValid recBig ∧
    ((specCodec.Key recBig).length : Int) + (specCodec.Value recBig).length ≤ 2 ^ 63 - 1 ∧
    (scanAll specCodec 2
        (NewScanner specCodec { data := encodeAll specCodec [recBig], sched := [] }
          (2 ^ 63 - 1))).map (fun p => (p.1, p.2.Err)) =
      some ([], some ScanErr.ErrTooLong) ∧
    (scanAll specCodec 2
        (NewScanner specCodec
          { data := encodeAll specCodec [recBig], sched := List.replicate 5004 1 }
          (2 ^ 63 - 1))).map (fun p => (p.1, p.2.Err)) =
      some ([], some ScanErr.ErrTooLong) := by
  have key : ∀ sched : List Nat, (∀ k ∈ sched, 0 < k) →
      (scanAll specCodec 2
        (NewScanner specCodec { data := encodeAll specCodec [recBig], sched := sched }
          (2 ^ 63 - 1))).map (fun p => (p.1, p.2.Err)) =
      some ([], some ScanErr.ErrTooLong) := by
    intro sched hs
    obtain ⟨sf, h1, h2, -⟩ := scanAll_tooLong specCodec specValid specCodec_lawful [] recBig []
      (NewScanner specCodec { data := encodeAll specCodec [recBig], sched := sched }
        (2 ^ 63 - 1)) 2
      (NewScanner_WF _ _ _ _ hs)
      (fun r hr => absurd hr (List.not_mem_nil r)) recBig_valid (recBig_too_long _)
      (by
        show [] ++ encodeAll specCodec [recBig] =
          encodeAll specCodec [] ++ (specCodec.Write recBig ++ [])
        rw [encodeAll_singleton, List.append_nil]
        rfl)
      (by decide)
    rw [h1]
    simp [Scanner.Err, h2]
  exact ⟨recBig_valid, by rw [recBig_key_value]; norm_num,
    key [] (fun k hk => absurd hk (List.not_mem_nil k)), key _ (replicate_one_pos 5004)⟩

/-- Incremental equivalence wherever the token limit does not wrap: let
`maxScanTokenSize + metaLength` be less than `2^63`. For every stream that is
the concatenation of valid record encodings, each with key plus value size at
most `maxScanTokenSize` and at most `2^62` bytes long, and for any two ways the
reader cuts the stream into reads of at least one byte, the scanner produces
the same tokens, the encodings of those records in order, each decoding to its
record, and ends without an error. -/
theorem scan_independent_of_reads (c : Codec R) (valid : R → Prop) (hc : c.Lawful valid)
    (M : Int) (rs : List R) (sched1 sched2 : List Nat) (fuel : Nat)
    (hM : M + c.metaLength < 2 ^ 63)
    (hs1 : ∀ k ∈ sched1, 0 < k) (hs2 : ∀ k ∈ sched2, 0 < k)
    (hrs : ∀ r ∈ rs, valid r ∧ ((c.Key r).length : Int) + (c.Value r).length ≤ M ∧
      c.Size r ≤ 2 ^ 62)
    (hfuel : rs.length < fuel) :
    (scanAll c fuel (NewScanner c { data := encodeAll c rs, sched := sched1 } M)).map
        (fun p => (p.1, p.2.Err)) = some (rs.map (fun r => (c.Write r, some r)), none) ∧
    (scanAll c fuel (NewScanner c { data := encodeAll c rs, sched := sched2 } M)).map
        (fun p => (p.1, p.2.Err)) = some (rs.map (fun r => (c.Write r, some r)), none) := by
  have key : ∀ sched : List Nat, (∀ k ∈ sched, 0 < k) →
      (scanAll c fuel (NewScanner c { data := encodeAll c rs, sched := sched } M)).map
        (fun p => (p.1, p.2.Err)) = some (rs.map (fun r => (c.Write r, some r)), none) := by
    intro sched hs
    obtain ⟨sf, h1, h2, -⟩ := scanAll_complete c valid hc rs
      (NewScanner c { data := encodeAll c rs, sched := sched } M) fuel
      (NewScanner_WF _ _ _ _ hs)
      (fun r hr => ⟨(hrs r hr).1,
        NewScanner_admits_nowrap c valid hc _ M r (hrs r hr).1 (hrs r hr).2.1 hM
          (hrs r hr).2.2⟩)
      (by simp [NewScanner]) hfuel
    rw [h1]
    simp [Scanner.Err, h2]
  exact ⟨key sched1 hs1, key sched2 hs2⟩

/-- Instance of the incremental equivalence: two records, read one byte at a
time and read all at once. -/
theorem scan_independent_of_reads_witness :
    (scanAll specCodec 3
        (NewScanner specCodec
          { data := encodeAll specCodec [recA, recA], sched := List.replicate 12 1 } 2)).map
        (fun p => (p.1, p.2.Err)) =
      some ([recA, recA].map (fun r => (specCodec.Write r, some r)), none) ∧
    (scanAll specCodec 3
        (NewScanner specCodec
          { data := encodeAll specCodec [recA, recA], sched := [] } 2)).map
        (fun p => (p.1, p.2.Err)) =
      some ([recA, recA].map (fun r => (specCodec.Write r, some r)), none) :=
  scan_independent_of_reads specCodec specValid specCodec_lawful 2 [recA, recA]
    (List.replicate 12 1) [] 3 (by decide) (by decide) (by decide) (by decide) (by decide)

/-- C4, failing input: `NewScanner(r, 0)` over the stream holding the record
`recA`, whose key and value take 2 bytes, more than `maxScanTokenSize`. The
record is still produced as a token and the scan ends without an error: its 6
encoded bytes fit the 4096 byte buffer that `NewScanner` hands to bufio
whatever the limit is. -/
theorem small_oversize_record_is_produced :
    ((0 : Int) < ((specCodec.Key recA).length : Int) + (specCodec.Value recA).length) ∧
    (scanAll specCodec 2
        (NewScanner specCodec { data := specCodec.Write recA, sched := [] } 0)).map
        (fun p => (p.1, p.2.Err)) = some ([(specCodec.Write recA, some recA)], none) := by
  refine ⟨by decide, ?_⟩
  obtain ⟨sf, h1, h2, -⟩ := scanAll_complete specCodec specValid specCodec_lawful [recA]
    (NewScanner specCodec { data := specCodec.Write recA, sched := [] } 0) 2
    (NewScanner_WF _ _ _ _ (by simp))
    (by
      intro r hr
      simp only [List.mem_singleton] at hr
      subst hr
      exact ⟨by decide, Or.inl (by decide)⟩)
    (by simp [NewScanner, encodeAll]) (by decide)
  rw [h1]
  simp [Scanner.Err, h2]

/-- Oversize rejection above the initial buffer: for every `maxScanTokenSize`
(a Go `int`) and every well-formed record whose key length plus value length is
greater than `maxScanTokenSize` and whose encoding is longer than the initial
4096 byte buffer: in a stream in which it comes after valid records that the
scanner can take (encoded size at most 4096, or key plus value at most
`maxScanTokenSize` with `maxScanTokenSize + metaLength <= 2^62`), however the
reads are cut, the scanner produces those records and then `Scan` returns false
with `ErrTooLong`; the oversize record is not produced. -/
theorem oversize_record_rejected (c : Codec R) (valid : R → Prop) (hc : c.Lawful valid)
    (M : Int) (rs : List R) (big : R) (rest : List Byte) (sched : List Nat) (fuel : Nat)
    (hM : -(2 ^ 63) ≤ M) (hs : ∀ k ∈ sched, 0 < k)
    (hrs : ∀ r ∈ rs, valid r ∧ (c.Size r ≤ 4096 ∨
      (((c.Key r).length : Int) + (c.Value r).length ≤ M ∧ M + c.metaLength ≤ 2 ^ 62)))
    (hv : valid big) (hover : M < ((c.Key big).length : Int) + (c.Value big).length)
    (h4096 : 4096 < c.Size big) (hfuel : rs.length < fuel) :
    (scanAll c fuel
        (NewScanner c { data := encodeAll c rs ++ (c.Write big ++ rest), sched := sched } M)).map
        (fun p => (p.1, p.2.Err)) =
      some (rs.map (fun r => (c.Write r, some r)), some ScanErr.ErrTooLong) := by
  obtain ⟨sf, h1, h2, -⟩ := scanAll_tooLong c valid hc rs big rest
    (NewScanner c { data := encodeAll c rs ++ (c.Write big ++ rest), sched := sched } M) fuel
    (NewScanner_WF _ _ _ _ hs)
    (fun r hr => ⟨(hrs r hr).1, NewScanner_admits c valid hc _ M r (hrs r hr).1 (hrs r hr).2⟩)
    hv (NewScanner_too_small c valid hc _ M big hv hM hover h4096)
    (by simp [NewScanner]) hfuel
  rw [h1]
  simp [Scanner.Err, h2]

/-- Instance of the oversize rejection: `recA` followed by the 5004 byte
`recBig`, with `maxScanTokenSize = 100`. -/
theorem oversize_record_rejected_witness :
    (scanAll specCodec 2
        (NewScanner specCodec
          { data := encodeAll specCodec [recA] ++ (specCodec.Write recBig ++ []),
            sched := [] } 100)).map
        (fun p => (p.1, p.2.Err)) =
      some ([recA].map (fun r => (specCodec.Write r, some r)), some ScanErr.ErrTooLong) :=
  oversize_record_rejected specCodec specValid specCodec_lawful 100 [recA] recBig [] [] 2
    (by decide) (by decide)
    (by
      intro r hr
      simp only [List.mem_singleton] at hr
      subst hr
      exact ⟨by decide, Or.inl (by decide)⟩)
    recBig_valid (by rw [recBig_key_value]; norm_num) (by rw [recBig_Size]; decide) (by decide)

/-- C5, failing input: `NewScanner(r, math.MaxInt64)` (the token limit wraps
around) over the stream holding the one valid record `recBig`: the cursor
driven with `next()` and `write(w)` writes nothing to the sink, though the
stream is not empty. -/
theorem drive_int_wrap_writes_nothing :
    specValid recBig ∧
    ((specCodec.Key recBig).length : Int) + (specCodec.Value recBig).length ≤ 2 ^ 63 - 1 ∧
    encodeAll specCodec [recBig] ≠ [] ∧
    (drive specCodec 2
        (newScannerCursor
          (NewScanner specCodec { data := encodeAll specCodec [recBig], sched := [] }
            (2 ^ 63 - 1))) []).map (fun p => p.2) = some [] := by
  refine ⟨recBig_valid, by rw [recBig_key_value]; norm_num, ?_, ?_⟩
  · rw [encodeAll_singleton]
    exact List.cons_ne_nil _ _
  obtain ⟨sf, h1, -, h3⟩ := scanLoop_tooLong specCodec specValid specCodec_lawful
    ((encodeAll specCodec [recBig]).length + 2)
    (NewScanner specCodec { data := encodeAll specCodec [recBig], sched := [] } (2 ^ 63 - 1))
    recBig [] (NewScanner_WF _ _ _ _ (fun k hk => absurd hk (List.not_mem_nil k))) recBig_valid
    (by
      show [] ++ encodeAll specCodec [recBig] = specCodec.Write recBig ++ []
      rw [encodeAll_singleton, List.append_nil]
      rfl)
    (recBig_too_long _)
    (by
      show (encodeAll specCodec [recBig]).length < (encodeAll specCodec [recBig]).length + 2
      omega)
  have hS : Scan specCodec (newScannerCursor
      (NewScanner specCodec { data := encodeAll specCodec [recBig], sched := [] }
        (2 ^ 63 - 1)) : scannerCursor Record).scanner = some (ScanOutcome.ret sf false) := h1
  rw [drive_stop specCodec specValid specCodec_lawful 1 _ [] sf hS h3]
  rfl

/-- Byte-identical re-emission wherever the token limit does not wrap: let
`maxScanTokenSize + metaLength` be less than `2^63`. For every stream that is
the concatenation of valid record encodings, each with key plus value size at
most `maxScanTokenSize` and at most `2^62` bytes long, however the reads are
cut, driving one cursor with `next()` then `write(w)` until `key()` is nil
appends to `w` exactly the bytes of the stream, in order, and leaves the cursor
with no record. -/
theorem cursor_reemits_stream (c : Codec R) (valid : R → Prop) (hc : c.Lawful valid)
    (M : Int) (rs : List R) (sched : List Nat) (w : List Byte) (fuel : Nat)
    (hM : M + c.metaLength < 2 ^ 63) (hs : ∀ k ∈ sched, 0 < k)
    (hrs : ∀ r ∈ rs, valid r ∧ ((c.Key r).length : Int) + (c.Value r).length ≤ M ∧
      c.Size r ≤ 2 ^ 62)
    (hfuel : rs.length < fuel) :
    (drive c fuel (newScannerCursor (NewScanner c { data := encodeAll c rs, sched := sched } M))
        w).map (fun p => (p.1.record, p.2)) = some (none, w ++ encodeAll c rs) := by
  obtain ⟨k, hk⟩ : ∃ k, fuel = rs.length + (k + 1) := ⟨fuel - rs.length - 1, by omega⟩
  obtain ⟨cur1, a1, a2, -, -, a5⟩ := drive_records c valid hc (k + 1) rs
    (newScannerCursor (NewScanner c { data := encodeAll c rs, sched := sched } M)) w []
    (NewScanner_WF _ _ _ _ hs)
    (fun r hr => ⟨(hrs r hr).1,
      NewScanner_admits_nowrap c valid hc _ M r (hrs r hr).1 (hrs r hr).2.1 hM
        (hrs r hr).2.2⟩)
    (by simp [newScannerCursor, NewScanner])
  have hw : cur1.scanner.win = [] := (List.append_eq_nil.mp a2).1
  have hd : cur1.scanner.r.data = [] := (List.append_eq_nil.mp a2).2
  obtain ⟨sf, b1, b2, -⟩ := scanLoop_end c cur1.scanner cur1.scanner.r.data.length a1 hw hd
  have hS : Scan c cur1.scanner = some (ScanOutcome.ret sf false) := b1
  rw [hk, a5, drive_stop c valid hc k cur1 _ sf hS b2]
  rfl

/-- Instance of the re-emission: two records read one byte at a time. -/
theorem cursor_reemits_stream_witness :
    (drive specCodec 3
        (newScannerCursor
          (NewScanner specCodec
            { data := encodeAll specCodec [recA, recA], sched := List.replicate 12 1 } 2))
        []).map (fun p => (p.1.record, p.2)) = some (none, [] ++ encodeAll specCodec [recA, recA]) :=
  cursor_reemits_stream specCodec specValid specCodec_lawful 2 [recA, recA]
    (List.replicate 12 1) [] 3 (by decide) (by decide) (by decide) (by decide)

theorem setErr_frame (s : Scanner) (e : ScanErr) :
    (s.setErr e).bufLen = s.bufLen ∧ (s.setErr e).start = s.start ∧
    (s.setErr e).win = s.win ∧ (s.setErr e).maxTokenSize = s.maxTokenSize ∧
    (s.setErr e).token = s.token ∧ (s.setErr e).r = s.r := by
  unfold Scanner.setErr
  split <;> simp

theorem Bounded_setErr (T : Int) (s : Scanner) (e : ScanErr) (h : s.Bounded T) :
    (s.setErr e).Bounded T := by
  obtain ⟨a1, a2, a3, a4, -, -⟩ := setErr_frame s e
  exact ⟨by rw [a4]; exact h.limit, by rw [a1]; exact h.cap, by rw [a1, a2, a3]; exact h.fits⟩

theorem readLoop_fits (k : Nat) (s : Scanner) (h : s.start + s.win.length ≤ s.bufLen) :
    (Scanner.readLoop k s).start + (Scanner.readLoop k s).win.length ≤
      (Scanner.readLoop k s).bufLen := by
  induction k generalizing s with
  | zero =>
    have hs := Read_spec s.r (s.bufLen - (s.start + s.win.length))
    rcases hread : s.r.Read (s.bufLen - (s.start + s.win.length)) with ⟨r1, bytes, err⟩
    rw [hread] at hs
    simp only at hs
    obtain ⟨-, h2, -⟩ := hs
    unfold Scanner.readLoop
    rw [hread]
    cases err with
    | some e =>
      simp only
      obtain ⟨a1, a2, a3, -⟩ := setErr_frame { s with r := r1, win := s.win ++ bytes } e
      rw [a1, a2, a3]
      simp only [List.length_append]
      omega
    | none =>
      simp only
      split
      · simp only [List.length_append]; omega
      · obtain ⟨a1, a2, a3, -⟩ :=
          setErr_frame { s with r := r1, win := s.win ++ bytes } ScanErr.ErrNoProgress
        rw [a1, a2, a3]
        simp only [List.length_append]
        omega
  | succ k ih =>
    have hs := Read_spec s.r (s.bufLen - (s.start + s.win.length))
    rcases hread : s.r.Read (s.bufLen - (s.start + s.win.length)) with ⟨r1, bytes, err⟩
    rw [hread] at hs
    simp only at hs
    obtain ⟨-, h2, -⟩ := hs
    unfold Scanner.readLoop
    rw [hread]
    cases err with
    | some e =>
      simp only
      obtain ⟨a1, a2, a3, -⟩ := setErr_frame { s with r := r1, win := s.win ++ bytes } e
      rw [a1, a2, a3]
      simp only [List.length_append]
      omega
    | none =>
      simp only
      split
      · simp only [List.length_append]; omega
      · exact ih { s with r := r1, win := s.win ++ bytes }
          (by simp only [List.length_append]; omega)

theorem Bounded_readLoop (T : Int) (k : Nat) (s : Scanner) (h : s.Bounded T) :
    (Scanner.readLoop k s).Bounded T := by
  obtain ⟨a1, a2, a3, -⟩ := readLoop_frame k s
  exact ⟨by rw [a3]; exact h.limit, by rw [a1]; exact h.cap, readLoop_fits k s h.fits⟩

theorem Bounded_shift (T : Int) (s : Scanner) (h : s.Bounded T) : s.shift.Bounded T := by
  obtain ⟨w1, -, -, w4, w5, -, -, w8⟩ := shift_frame s
  have := h.fits
  exact ⟨by rw [w5]; exact h.limit, by rw [w4]; exact h.cap, by rw [w1, w4]; omega⟩

theorem Bounded_grow (T : Int) (s : Scanner) (h : s.Bounded T)
    (hfull : s.start + s.win.length = s.bufLen)
    (hno : ¬ (s.maxTokenSize ≤ (s.bufLen : Int) ∨ maxInt / 2 < s.bufLen)) :
    s.grow.Bounded T := by
  obtain ⟨g1, -, -, g4, -, -, g7, g8⟩ := grow_frame s
  have hl := h.limit
  simp only [not_or, not_le, not_lt] at hno
  refine ⟨by rw [g4]; exact hl, ?_, ?_⟩
  · rw [g8, ← hl]
    omega
  · rw [g7, g1, g8]
    have : startBufSize = 4096 := rfl
    split <;> omega

theorem Bounded_trySplit (c : Codec R) (T : Int) (s s1 : Scanner) (h : s.Bounded T) :
    (∀ ok, s.trySplit c = Step.ret s1 ok → s1.Bounded T) ∧
    (s.trySplit c = Step.again s1 → s1.Bounded T) := by
  have hf := h.fits
  unfold Scanner.trySplit
  split
  · simp only
    split
    · refine ⟨fun ok hh => ?_, fun hh => Step.noConfusion hh⟩
      injection hh with h1 _
      subst h1
      exact Bounded_setErr T s _ h
    · split
      · exact ⟨fun ok hh => Step.noConfusion hh, fun hh => Step.noConfusion hh⟩
      · split
        · refine ⟨fun ok hh => ?_, fun hh => Step.noConfusion hh⟩
          injection hh with h1 _
          subst h1
          exact Bounded_setErr T s _ h
        · rename_i hadv1 hadv2
          simp only [not_lt] at hadv1 hadv2
          have hb : ∀ (tk : Option (List Byte)) (em : Nat), Scanner.Bounded T
              { s with start := s.start + (split c s.win (s.err != none)).advance,
                       win := s.win.drop (split c s.win (s.err != none)).advance,
                       token := tk, empties := em } := by
            intro tk em
            refine ⟨h.limit, h.cap, ?_⟩
            simp only [List.length_drop]
            omega
          split
          · split
            · refine ⟨fun ok hh => ?_, fun hh => Step.noConfusion hh⟩
              injection hh with h1 _
              subst h1
              exact hb _ _
            · split
              · exact ⟨fun ok hh => Step.noConfusion hh, fun hh => Step.noConfusion hh⟩
              · refine ⟨fun ok hh => ?_, fun hh => Step.noConfusion hh⟩
                injection hh with h1 _
                subst h1
                exact hb _ _
          · refine ⟨fun ok hh => Step.noConfusion hh, fun hh => ?_⟩
            injection hh with h1
            subst h1
            exact hb _ _
  · refine ⟨fun ok hh => Step.noConfusion hh, fun hh => ?_⟩
    injection hh with h1
    subst h1
    exact h

theorem Bounded_fill (T : Int) (s s1 : Scanner) (h : s.Bounded T) :
    (∀ ok, s.fill = Step.ret s1 ok → s1.Bounded T) ∧
    (s.fill = Step.again s1 → s1.Bounded T) := by
  have hsh := Bounded_shift T s h
  unfold Scanner.fill
  split
  · refine ⟨fun ok hh => ?_, fun hh => Step.noConfusion hh⟩
    injection hh with h1 _
    subst h1
    exact ⟨h.limit, h.cap, by simp⟩
  · split
    · rename_i hfull
      split
      · refine ⟨fun ok hh => ?_, fun hh => Step.noConfusion hh⟩
        injection hh with h1 _
        subst h1
        exact Bounded_setErr T _ _ hsh
      · rename_i hno
        refine ⟨fun ok hh => Step.noConfusion hh, fun hh => ?_⟩
        injection hh with h1
        subst h1
        exact Bounded_readLoop T _ _ (Bounded_grow T _ hsh hfull hno)
    · refine ⟨fun ok hh => Step.noConfusion hh, fun hh => ?_⟩
      injection hh with h1
      subst h1
      exact Bounded_readLoop T _ _ hsh

theorem Bounded_scanLoop (c : Codec R) (T : Int) (fuel : Nat) :
    ∀ (s s1 : Scanner) (ok : Bool), s.Bounded T →
      scanLoop c fuel s = some (ScanOutcome.ret s1 ok) → s1.Bounded T := by
  induction fuel with
  | zero => intro s s1 ok _ h; simp [scanLoop] at h
  | succ n ih =>
    intro s s1 ok hb h
    unfold scanLoop at h
    cases hit : scanIter c s with
    | crash => rw [hit] at h; simp at h
    | ret s2 ok2 =>
      rw [hit] at h
      simp only [Option.some.injEq, ScanOutcome.ret.injEq] at h
      obtain ⟨h1, h2⟩ := h
      subst h1 h2
      unfold scanIter at hit
      cases hts : s.trySplit c with
      | crash => rw [hts] at hit; exact Step.noConfusion hit
      | ret s3 ok3 =>
        rw [hts] at hit
        simp only at hit
        injection hit with e1 e2
        subst e1 e2
        exact (Bounded_trySplit c T s s3 hb).1 _ hts
      | again s3 =>
        rw [hts] at hit
        simp only at hit
        exact (Bounded_fill T s3 s2 ((Bounded_trySplit c T s s3 hb).2 hts)).1 _ hit
    | again s2 =>
      rw [hit] at h
      refine ih s2 s1 ok ?_ h
      unfold scanIter at hit
      cases hts : s.trySplit c with
      | crash => rw [hts] at hit; exact Step.noConfusion hit
      | ret s3 ok3 => rw [hts] at hit; exact Step.noConfusion hit
      | again s3 =>
        rw [hts] at hit
        simp only at hit
        exact (Bounded_fill T s3 s2 ((Bounded_trySplit c T s s3 hb).2 hts)).2 hit

theorem Bounded_scanN (c : Codec R) (T : Int) (n : Nat) :
    ∀ (s s1 : Scanner), s.Bounded T → scanN c n s = some s1 → s1.Bounded T := by
  induction n with
  | zero =>
    intro s s1 hb h
    simp only [scanN, Option.some.injEq] at h
    subst h
    exact hb
  | succ k ih =>
    intro s s1 hb h
    unfold scanN at h
    cases hS : Scan c s with
    | none => rw [hS] at h; simp at h
    | some o =>
      cases o with
      | crash => rw [hS] at h; simp at h
      | ret s2 ok =>
        rw [hS] at h
        simp only at h
        exact ih s2 s1 (Bounded_scanLoop c T _ s s2 ok hb hS) h

theorem NewScanner_Bounded (c : Codec R) (rd : Reader) (M : Int) :
    (NewScanner c rd M).Bounded (wrapInt (M + c.metaLength)) :=
  ⟨rfl, by simp [NewScanner], by simp [NewScanner]⟩

theorem encodeAll_snoc (c : Codec R) (rs : List R) (r : R) (rest : List Byte) :
    encodeAll c (rs ++ [r]) ++ rest = encodeAll c rs ++ (c.Write r ++ rest) := by
  simp [encodeAll]

/-- Scanning a stream that starts with valid records the buffer can take: the
first calls of Scan return true with those records as tokens, in order. -/
theorem scanFirst_records (c : Codec R) (valid : R → Prop) (hc : c.Lawful valid) :
    ∀ (rs : List R) (s : Scanner) (rest : List Byte), s.WF →
      (∀ r ∈ rs, valid r ∧ s.admits (c.Size r)) →
      s.win ++ s.r.data = encodeAll c rs ++ rest →
      ∃ s1, s1.WF ∧ s1.win ++ s1.r.data = rest ∧
        scanFirst c rs.length s = some (rs.map (fun r => (c.Write r, some r)), s1) := by
  intro rs
  induction rs with
  | nil =>
    intro s rest hwf _ hpend
    exact ⟨s, hwf, by simpa [encodeAll] using hpend, rfl⟩
  | cons r rs ih =>
    intro s rest hwf hall hpend
    obtain ⟨hv, hadm⟩ := hall r (List.mem_cons_self _ _)
    have hpend1 : s.win ++ s.r.data = c.Write r ++ (encodeAll c rs ++ rest) := by
      rw [hpend]; simp [encodeAll]
    obtain ⟨s1, a1, a2, a3, a4, a5, a6⟩ :=
      scanLoop_token c valid hc (s.r.data.length + 2) s r _ hwf hv hpend1 hadm (by omega)
    obtain ⟨b1, b2⟩ := Record_of_token c valid hc s1 r hv a2
    obtain ⟨s2, c1, c2, c3⟩ := ih s1 rest a4
      (fun r1 h1 => ⟨(hall r1 (List.mem_cons_of_mem _ h1)).1,
        admits_mono s s1 _ (hall r1 (List.mem_cons_of_mem _ h1)).2 a5 a6⟩) a3
    refine ⟨s2, c1, c2, ?_⟩
    have hS : Scan c s = some (ScanOutcome.ret s1 true) := a1
    simp only [List.length_cons]
    unfold scanFirst
    rw [hS]
    simp only
    rw [c3, b1, b2]
    rfl

theorem split_token_some (c : Codec R) (d t : List Byte) (atEOF : Bool)
    (h : (split c d atEOF).token = some t) :
    ∃ r, c.FromBytes d = .ok r ∧ t = d.take (c.Size r) := by
  unfold split at h
  split at h
  · simp at h
  · cases hfb : c.FromBytes d with
    | error e =>
      rw [hfb] at h
      simp only at h
      split at h <;> simp at h
    | ok r =>
      rw [hfb] at h
      simp only [Option.some.injEq] at h
      exact ⟨r, rfl, h.symm⟩

theorem trySplit_true_token (c : Codec R) (s s1 : Scanner)
    (h : s.trySplit c = Step.ret s1 true) :
    ∃ d r, c.FromBytes d = .ok r ∧ s1.token = some (d.take (c.Size r)) := by
  unfold Scanner.trySplit at h
  split at h
  · simp only at h
    split at h
    · injection h with _ h2
      exact Bool.noConfusion h2
    · split at h
      · exact Step.noConfusion h
      · split at h
        · injection h with _ h2
          exact Bool.noConfusion h2
        · split at h
          · rename_i tk htk
            obtain ⟨r, hr1, hr2⟩ := split_token_some c s.win tk _ htk
            split at h
            · injection h with h1 _
              subst h1
              exact ⟨s.win, r, hr1, by simp only [htk, hr2]⟩
            · split at h
              · exact Step.noConfusion h
              · injection h with h1 _
                subst h1
                exact ⟨s.win, r, hr1, by simp only [htk, hr2]⟩
          · exact Step.noConfusion h
  · exact Step.noConfusion h

theorem fill_not_true (s s1 : Scanner) (h : s.fill = Step.ret s1 true) : False := by
  unfold Scanner.fill at h
  split at h
  · injection h with _ h2
    exact Bool.noConfusion h2
  · split at h
    · split at h
      · injection h with _ h2
        exact Bool.noConfusion h2
      · exact Step.noConfusion h
    · exact Step.noConfusion h

/-- A Scan that returns true leaves as token the bytes that a successful
decode of the buffer delimited. -/
theorem scanLoop_true_token (c : Codec R) (fuel : Nat) :
    ∀ (s s1 : Scanner), scanLoop c fuel s = some (ScanOutcome.ret s1 true) →
      ∃ d r, c.FromBytes d = .ok r ∧ s1.token = some (d.take (c.Size r)) := by
  induction fuel with
  | zero => intro s s1 h; simp [scanLoop] at h
  | succ n ih =>
    intro s s1 h
    unfold scanLoop at h
    cases hit : scanIter c s with
    | crash => rw [hit] at h; simp at h
    | ret s2 ok =>
      rw [hit] at h
      simp only [Option.some.injEq, ScanOutcome.ret.injEq] at h
      obtain ⟨h1, h2⟩ := h
      subst h1 h2
      unfold scanIter at hit
      cases hts : s.trySplit c with
      | crash => rw [hts] at hit; exact Step.noConfusion hit
      | ret s3 ok3 =>
        rw [hts] at hit
        simp only at hit
        injection hit with e1 e2
        subst e1 e2
        exact trySplit_true_token c s s3 hts
      | again s3 =>
        rw [hts] at hit
        simp only at hit
        exact (fill_not_true s3 s2 hit).elim
    | again s2 =>
      rw [hit] at h
      exact ih s2 s1 h

/-- The spec codec decodes the bytes a successful decode consumed to the same
record. -/
theorem specFromBytes_take (d : List Byte) (r : Record) (h : specFromBytes d = .ok r) :
    specFromBytes (d.take (4 + r.key.length + r.value.length)) = .ok r := by
  match d, h with
  | [], h => simp [specFromBytes] at h
  | [_], h => simp [specFromBytes] at h
  | [_, _], h => simp [specFromBytes] at h
  | [_, _, _], h => simp [specFromBytes] at h
  | a :: b :: x :: y :: body, h =>
    simp only [specFromBytes] at h
    split at h
    · simp at h
    · rename_i hm
      split at h
      · simp at h
      · rename_i hlen
        simp only [not_or, not_le] at hm
        simp only [not_lt] at hlen
        simp only [Except.ok.injEq] at h
        subst h
        have hk : (List.take (a * 256 + b) body).length = a * 256 + b := by
          rw [List.length_take]; omega
        have hv : (List.take (x * 256 + y) (List.drop (a * 256 + b) body)).length =
            x * 256 + y := by
          rw [List.length_take, List.length_drop]; omega
        dsimp only
        rw [hk, hv]
        have ht : List.take (4 + (a * 256 + b) + (x * 256 + y)) (a :: b :: x :: y :: body) =
            a :: b :: x :: y :: List.take ((a * 256 + b) + (x * 256 + y)) body := by
          have : 4 + (a * 256 + b) + (x * 256 + y) = ((a * 256 + b) + (x * 256 + y)) + 4 := by
            rw [Nat.add_assoc, Nat.add_comm]
          rw [this]
          rfl
        rw [ht, specFromBytes_header _ _ _ _ _ hm.1 hm.2]
        rw [if_neg (by rw [List.length_take]; omega)]
        congr 2
        · rw [List.take_take]
          congr 1
          omega
        · rw [List.drop_take, List.take_take]
          congr 1
          omega

/-! ### Claims about decode errors, the buffer bound and the end of the stream -/

/-- C11: for every non-empty buffer `data` and either value of `atEOF`, if
`FromBytes(data)` returns an error `e` for which
`errors.Is(e, ErrInsufficientData)` is false, `split` returns advance 0, a nil
token and that same error `e`; a `Scan` whose buffer holds `data` then returns
false with `e` recorded and leaves the buffered bytes and the read position as
they are: nothing is skipped. -/
theorem split_fatal_error_propagates (c : Codec R) (data : List Byte) (atEOF : Bool)
    (e : DecodeErr) (s : Scanner) (hne : data ≠ []) (h : c.FromBytes data = .error e)
    (he : e.isInsufficientData = false) (hwin : s.win = data) :
    split c data atEOF = { advance := 0, token := none, err := some e } ∧
    Scan c s = some (ScanOutcome.ret (s.setErr (ScanErr.decode e)) false) ∧
    (s.setErr (ScanErr.decode e)).win = data ∧
    (s.setErr (ScanErr.decode e)).start = s.start ∧
    (s.setErr (ScanErr.decode e)).token = s.token := by
  obtain ⟨-, a2, a3, -, a5, -⟩ := setErr_frame s (ScanErr.decode e)
  refine ⟨split_of_fatal c data atEOF e hne h he, ?_, by rw [a3, hwin], a2, a5⟩
  exact Scan_fatal c s e (by rw [hwin]; exact hne) (by rw [hwin]; exact h) he

/-- Witness for C11: the meta header `[200, 0, 0, 0, 1]` with a negative key
length, buffered after the first record of `streamBadTail`. -/
theorem split_fatal_error_propagates_witness :
    split specCodec [200, 0, 0, 0, 1] false =
      { advance := 0, token := none, err := some (DecodeErr.malformed 1) } ∧
    Scan specCodec scanBadTail =
      some (ScanOutcome.ret
        (scanBadTail.setErr (ScanErr.decode (DecodeErr.malformed 1))) false) ∧
    (scanBadTail.setErr (ScanErr.decode (DecodeErr.malformed 1))).win = [200, 0, 0, 0, 1] ∧
    (scanBadTail.setErr (ScanErr.decode (DecodeErr.malformed 1))).start = scanBadTail.start ∧
    (scanBadTail.setErr (ScanErr.decode (DecodeErr.malformed 1))).token = scanBadTail.token :=
  split_fatal_error_propagates specCodec [200, 0, 0, 0, 1] false (DecodeErr.malformed 1)
    scanBadTail (by decide) rfl rfl rfl

/-- C12: for every buffer `data`, if `FromBytes(data)` returns
`ErrInsufficientData`, directly or wrapped, `split` with `atEOF = false` returns
advance 0, a nil token and a nil error; in a `Scan` with no error recorded
whose buffer holds `data`, the split step consumes nothing, records no error
and goes on to read more bytes. -/
theorem split_insufficient_before_end (c : Codec R) (data : List Byte) (e : DecodeErr)
    (s : Scanner) (h : c.FromBytes data = .error e) (he : e.isInsufficientData = true)
    (hwin : s.win = data) (herr : s.err = none) :
    split c data false = { advance := 0, token := none, err := none } ∧
    s.trySplit c = Step.again { s with token := if data = [] then s.token else none } := by
  have hsp := split_of_insufficient c data false e h he
  refine ⟨hsp, ?_⟩
  by_cases hd : data = []
  · have hcond : ¬ (s.win ≠ [] ∨ s.err ≠ none) := by simp [hwin, hd, herr]
    unfold Scanner.trySplit
    rw [if_neg hcond, if_pos hd]
  · have hsp2 : split c s.win (s.err != none) = ⟨0, none, none⟩ := by
      rw [hwin, herr]; exact hsp
    unfold Scanner.trySplit
    rw [hsp2, if_neg hd]
    simp [hwin, hd]

/-- Witness for C12: the five bytes `[0, 1, 0, 1, 97]` of a six byte record,
buffered before the end of the stream. -/
theorem split_insufficient_before_end_witness :
    split specCodec [0, 1, 0, 1, 97] false = { advance := 0, token := none, err := none } ∧
    Scanner.trySplit specCodec { scanCutTail with err := none } =
      Step.again { { scanCutTail with err := none } with
        token := if ([0, 1, 0, 1, 97] : List Byte) = [] then
          ({ scanCutTail with err := none } : Scanner).token else none } :=
  split_insufficient_before_end specCodec [0, 1, 0, 1, 97] DecodeErr.insufficientData
    { scanCutTail with err := none } rfl rfl rfl rfl

/-- C13, failing input: `NewScanner(r, 0)` over two six byte records. With
`maxScanTokenSize = 0` and `metaLength = 4` the scanner has a buffer of 4096
bytes, not at most 4; its first `Scan` reads all twelve bytes into it and six
of them stay buffered afterwards, more than `maxScanTokenSize + metaLength`. -/
theorem buffer_exceeds_token_limit :
    (0 : Int) + specCodec.metaLength <
      (NewScanner specCodec
        { data := [0, 1, 0, 1, 97, 1, 0, 1, 0, 1, 97, 1], sched := [] } 0).bufLen ∧
    Scan specCodec (NewScanner specCodec
        { data := [0, 1, 0, 1, 97, 1, 0, 1, 0, 1, 97, 1], sched := [] } 0) =
      some (ScanOutcome.ret scanTwoA true) ∧
    (0 : Int) + specCodec.metaLength < scanTwoA.win.length ∧
    (0 : Int) + specCodec.metaLength < scanTwoA.bufLen :=
  ⟨by decide, by decide, by decide, by decide⟩

/-- The bound the buffer does keep: for every `maxScanTokenSize` (a Go
`int`), every decoder and every reader, the buffer of a Scanner built by
`NewScanner` never has more bytes than the larger of 4096 (its initial size)
and `maxScanTokenSize + metaLength`, at construction and after any number of
`Scan` calls, and the buffered bytes always lie inside it. -/
theorem buffer_bound (c : Codec R) (rd : Reader) (M : Int) (n : Nat) (s1 : Scanner)
    (hM : -(2 ^ 63) ≤ M) (h : scanN c n (NewScanner c rd M) = some s1) :
    (s1.bufLen : Int) ≤ max 4096 (M + c.metaLength) ∧
    s1.start + s1.win.length ≤ s1.bufLen ∧
    (s1.win.length : Int) ≤ max 4096 (M + c.metaLength) := by
  have hb := Bounded_scanN c _ n _ s1 (NewScanner_Bounded c rd M) h
  have hw := wrapInt_le (M + c.metaLength) (by omega)
  have hcap := hb.cap
  have hfit := hb.fits
  refine ⟨?_, hfit, ?_⟩ <;> omega

/-- Instance of the bound the buffer keeps: the scanner with
`maxScanTokenSize = 0` after one `Scan` over two six byte records. -/
theorem buffer_bound_witness :
    (scanTwoA.bufLen : Int) ≤ max 4096 (0 + specCodec.metaLength) ∧
    scanTwoA.start + scanTwoA.win.length ≤ scanTwoA.bufLen ∧
    (scanTwoA.win.length : Int) ≤ max 4096 (0 + specCodec.metaLength) :=
  buffer_bound specCodec { data := [0, 1, 0, 1, 97, 1, 0, 1, 0, 1, 97, 1], sched := [] } 0 1
    scanTwoA (by decide) (by decide)

/-- C14, failing input: `NewScanner(r, math.MaxInt64)` over the stream that
holds the valid record `recBig`. The limit is at least 0 and at least the 5000
bytes of key plus value of the record, yet `maxScanTokenSize + metaLength`
wraps around and the `Scan` returns false with `ErrTooLong` and no token. -/
theorem scan_too_long_at_largest_limit :
    (0 : Int) ≤ 2 ^ 63 - 1 ∧ specValid recBig ∧
    ((specCodec.Key recBig).length : Int) + (specCodec.Value recBig).length ≤ 2 ^ 63 - 1 ∧
    (Scan specCodec
        (NewScanner specCodec { data := encodeAll specCodec [recBig], sched := [] }
          (2 ^ 63 - 1))).bind ScanOutcome.view =
      some (false, some ScanErr.ErrTooLong, []) := by
  refine ⟨by norm_num, recBig_valid, by rw [recBig_key_value]; norm_num, ?_⟩
  obtain ⟨sf, h1, h2, h3⟩ := scanLoop_tooLong specCodec specValid specCodec_lawful
    ((encodeAll specCodec [recBig]).length + 2)
    (NewScanner specCodec { data := encodeAll specCodec [recBig], sched := [] } (2 ^ 63 - 1))
    recBig [] (NewScanner_WF _ _ _ _ (fun k hk => absurd hk (List.not_mem_nil k))) recBig_valid
    (by
      show [] ++ encodeAll specCodec [recBig] = specCodec.Write recBig ++ []
      rw [encodeAll_singleton, List.append_nil]
      rfl)
    (recBig_too_long _)
    (by
      show (encodeAll specCodec [recBig]).length < (encodeAll specCodec [recBig]).length + 2
      omega)
  have hS : Scan specCodec
      (NewScanner specCodec { data := encodeAll specCodec [recBig], sched := [] }
        (2 ^ 63 - 1)) = some (ScanOutcome.ret sf false) := h1
  rw [hS]
  simp [ScanOutcome.view, Scanner.Err, Scanner.Bytes, h2, h3]

/-- The size bound is sufficient wherever the token limit does not wrap: for
every `maxScanTokenSize` with `maxScanTokenSize + metaLength` less than `2^63`
and every valid record of at most `2^62` encoded bytes whose key length plus
value length is at most `maxScanTokenSize`, equality included: in a stream in
which the record comes after any number of such records, whatever bytes follow
it and however the reads are cut, the scanner produces the records before it
and then this record as a token, decoding to it, with no error. -/
theorem size_bound_suffices (c : Codec R) (valid : R → Prop) (hc : c.Lawful valid)
    (M : Int) (pre : List R) (r : R) (rest : List Byte) (sched : List Nat)
    (hM : M + c.metaLength < 2 ^ 63) (hs : ∀ k ∈ sched, 0 < k)
    (hpre : ∀ p ∈ pre, valid p ∧ ((c.Key p).length : Int) + (c.Value p).length ≤ M ∧
      c.Size p ≤ 2 ^ 62)
    (hv : valid r) (hr : ((c.Key r).length : Int) + (c.Value r).length ≤ M)
    (hsize : c.Size r ≤ 2 ^ 62) :
    (scanFirst c (pre.length + 1)
        (NewScanner c { data := encodeAll c pre ++ (c.Write r ++ rest), sched := sched } M)).map
        (fun p => (p.1, p.2.Err)) =
      some ((pre ++ [r]).map (fun x => (c.Write x, some x)), none) := by
  have hall : ∀ x ∈ pre ++ [r],
      valid x ∧ ((c.Key x).length : Int) + (c.Value x).length ≤ M ∧ c.Size x ≤ 2 ^ 62 := by
    intro x hx
    rcases List.mem_append.mp hx with hx | hx
    · exact hpre x hx
    · simp only [List.mem_singleton] at hx
      subst hx
      exact ⟨hv, hr, hsize⟩
  obtain ⟨s1, a1, -, a3⟩ := scanFirst_records c valid hc (pre ++ [r])
    (NewScanner c { data := encodeAll c pre ++ (c.Write r ++ rest), sched := sched } M) rest
    (NewScanner_WF _ _ _ _ hs)
    (fun x hx => ⟨(hall x hx).1,
      NewScanner_admits_nowrap c valid hc _ M x (hall x hx).1 (hall x hx).2.1 hM
        (hall x hx).2.2⟩)
    (by rw [encodeAll_snoc]; simp [NewScanner])
  have hlen : (pre ++ [r]).length = pre.length + 1 := by simp
  rw [hlen] at a3
  rw [a3]
  have hE : s1.Err = none := (Err_none_iff s1).mpr (by
    rcases a1.err_ok with h | ⟨h, -⟩
    · exact Or.inl h
    · exact Or.inr h)
  simp [hE]

/-- Instance of the sufficient size bound: `recA` with key plus value exactly
`maxScanTokenSize = 2`, after one record and before two stray bytes, read one
byte at a time. -/
theorem size_bound_suffices_witness :
    (scanFirst specCodec ([recA].length + 1)
        (NewScanner specCodec
          { data := encodeAll specCodec [recA] ++ (specCodec.Write recA ++ [7, 7]),
            sched := List.replicate 14 1 } 2)).map
        (fun p => (p.1, p.2.Err)) =
      some (([recA] ++ [recA]).map (fun x => (specCodec.Write x, some x)), none) :=
  size_bound_suffices specCodec specValid specCodec_lawful 2 [recA] recA [7, 7]
    (List.replicate 14 1) (by decide) (by decide) (by decide) (by decide) (by decide)
    (by decide)

/-- Instance of the sufficient size bound next to the failing input: the
5004 byte record `recBig` is produced with `maxScanTokenSize = 2^63 - 5`, the
largest limit for which the sum with `metaLength = 4` does not wrap. -/
theorem size_bound_suffices_below_wrap :
    (scanFirst specCodec (([] : List Record).length + 1)
        (NewScanner specCodec
          { data := encodeAll specCodec [] ++ (specCodec.Write recBig ++ []),
            sched := [] } (2 ^ 63 - 5))).map
        (fun p => (p.1, p.2.Err)) =
      some ((([] : List Record) ++ [recBig]).map (fun x => (specCodec.Write x, some x)), none) :=
  size_bound_suffices specCodec specValid specCodec_lawful (2 ^ 63 - 5) [] recBig [] []
    (by norm_num [specCodec]) (fun k hk => absurd hk (List.not_mem_nil k))
    (fun p hp => absurd hp (List.not_mem_nil p)) recBig_valid
    (by rw [recBig_key_value]; norm_num) (by rw [recBig_Size]; decide)

/-- C15: for every non-empty buffer `data` that the decoder of the spec codec
decodes to a record `r`, `split` returns the token `data[:r.Size()]`, and
decoding that token alone, as `Record()` does, yields `r` again (hence the same
key, value and `Size`); and after a `next()` whose `Scan` returned true the
cursor holds a record whose successful decode of the buffer delimited the
scanner's token. -/
theorem redecode_agrees (data : List Byte) (atEOF : Bool) (r : Record)
    (cur : scannerCursor Record) (s1 : Scanner) (hne : data ≠ [])
    (h : specCodec.FromBytes data = .ok r)
    (hscan : Scan specCodec cur.scanner = some (ScanOutcome.ret s1 true)) :
    split specCodec data atEOF =
      { advance := specCodec.Size r, token := some (data.take (specCodec.Size r)),
        err := none } ∧
    specCodec.FromBytes (data.take (specCodec.Size r)) = .ok r ∧
    ∃ (d : List Byte) (r1 : Record), specCodec.FromBytes d = .ok r1 ∧
      s1.token = some (d.take (specCodec.Size r1)) ∧
      cur.next specCodec = some { record := some r1, scanner := s1 } := by
  refine ⟨split_of_ok specCodec data atEOF r hne h, specFromBytes_take data r h, ?_⟩
  obtain ⟨d, r1, hd, ht⟩ := scanLoop_true_token specCodec _ cur.scanner s1 hscan
  refine ⟨d, r1, hd, ht, ?_⟩
  have hrec : s1.Record specCodec = some r1 := by
    unfold Scanner.Record Scanner.Bytes
    rw [ht]
    simp only [Option.getD_some]
    rw [show specCodec.FromBytes (d.take (specCodec.Size r1)) = .ok r1 from
      specFromBytes_take d r1 hd]
  unfold scannerCursor.next
  rw [hscan]
  simp only [hrec]

/-- Witness for C15: the encoding of `recA` followed by two more bytes, and
the first `next()` of the cursor over `streamBadTail`. -/
theorem redecode_agrees_witness :
    split specCodec [0, 1, 0, 1, 97, 1, 7, 7] true =
      { advance := specCodec.Size recA,
        token := some (([0, 1, 0, 1, 97, 1, 7, 7] : List Byte).take (specCodec.Size recA)),
        err := none } ∧
    specCodec.FromBytes (([0, 1, 0, 1, 97, 1, 7, 7] : List Byte).take (specCodec.Size recA)) =
      .ok recA ∧
    ∃ (d : List Byte) (r1 : Record), specCodec.FromBytes d = .ok r1 ∧
      scanBadTail.token = some (d.take (specCodec.Size r1)) ∧
      scannerCursor.next specCodec
          (newScannerCursor (NewScanner specCodec { data := streamBadTail, sched := [] } 16)) =
        some { record := some r1, scanner := scanBadTail } :=
  redecode_agrees [0, 1, 0, 1, 97, 1, 7, 7] true recA
    (newScannerCursor (NewScanner specCodec { data := streamBadTail, sched := [] } 16))
    scanBadTail (by decide) rfl (by decide)

/-- C16, counterexample: the stream that holds the one complete record
`recBig`, valid and 5004 bytes long, and nothing else, scanned with
`maxScanTokenSize = 100`, does not end the scan without an error: no token is
produced and `Err()` is `ErrTooLong`. -/
theorem complete_record_stream_ends_with_error :
    specValid recBig ∧
    (scanAll specCodec 2
        (NewScanner specCodec { data := encodeAll specCodec [recBig] ++ [], sched := [] }
          100)).map (fun p => (p.1.length, p.2.Err)) =
      some (0, some ScanErr.ErrTooLong) := by
  refine ⟨recBig_valid, ?_⟩
  obtain ⟨sf, h1, h2, -⟩ := scanAll_tooLong specCodec specValid specCodec_lawful [] recBig []
    (NewScanner specCodec { data := encodeAll specCodec [recBig] ++ [], sched := [] } 100) 2
    (NewScanner_WF _ _ _ _ (fun k hk => absurd hk (List.not_mem_nil k)))
    (fun r hr => absurd hr (List.not_mem_nil r)) recBig_valid
    (NewScanner_too_small specCodec specValid specCodec_lawful _ 100 recBig recBig_valid
      (by norm_num) (by rw [recBig_key_value]; norm_num) (by rw [recBig_Size]; decide))
    (by
      show [] ++ (encodeAll specCodec [recBig] ++ []) =
        encodeAll specCodec [] ++ (specCodec.Write recBig ++ [])
      rw [encodeAll_singleton]
      rfl)
    (by decide)
  rw [h1]
  simp [Scanner.Err, h2]

/-- C16, amended: `split` called with `atEOF = true` and an empty buffer
returns advance 0, a nil token and a nil error whatever the decoder is (it is
not consulted); so a stream holding zero or more complete records that the
scanner can take (encoded size at most 4096, or key plus value at most
`maxScanTokenSize` with `maxScanTokenSize + metaLength <= 2^62`) and nothing
else, however the reads are cut, yields one token for each record and then
ends the scan with `Err()` nil and no token. -/
theorem clean_end_of_stream (c d : Codec R) (valid : R → Prop) (hc : c.Lawful valid)
    (M : Int) (rs : List R) (sched : List Nat) (fuel : Nat) (hs : ∀ k ∈ sched, 0 < k)
    (hrs : ∀ r ∈ rs, valid r ∧ (c.Size r ≤ 4096 ∨
      (((c.Key r).length : Int) + (c.Value r).length ≤ M ∧ M + c.metaLength ≤ 2 ^ 62)))
    (hfuel : rs.length < fuel) :
    split d [] true = { advance := 0, token := none, err := none } ∧
    (scanAll c fuel (NewScanner c { data := encodeAll c rs, sched := sched } M)).map
        (fun p => (p.1.length, p.2.Err, p.2.Bytes)) = some (rs.length, none, []) := by
  refine ⟨split_nil_eof d, ?_⟩
  obtain ⟨sf, h1, h2, h3⟩ := scanAll_complete c valid hc rs
    (NewScanner c { data := encodeAll c rs, sched := sched } M) fuel
    (NewScanner_WF _ _ _ _ hs)
    (fun r hr => ⟨(hrs r hr).1, NewScanner_admits c valid hc _ M r (hrs r hr).1 (hrs r hr).2⟩)
    (by simp [NewScanner]) hfuel
  rw [h1]
  simp [Scanner.Err, Scanner.Bytes, h2, h3]

/-- Witness for C16, amended: the stream holding `recA` and nothing else, and
a decoder that would accept an empty buffer. -/
theorem clean_end_of_stream_witness :
    split { specCodec with FromBytes := fun _ => .ok recA } [] true =
      { advance := 0, token := none, err := none } ∧
    (scanAll specCodec 2
        (NewScanner specCodec { data := encodeAll specCodec [recA], sched := [] } 0)).map
        (fun p => (p.1.length, p.2.Err, p.2.Bytes)) = some ([recA].length, none, []) :=
  clean_end_of_stream specCodec { specCodec with FromBytes := fun _ => .ok recA } specValid
    specCodec_lawful 0 [recA] [] 2 (by decide) (by decide) (by decide)

end Kvdb
